import Mathlib

set_option autoImplicit false

namespace Renpy

/-! Shallow embedding of the text layout and line-breaking engine of
`renpy/text/textsupport.pyx`.  Python/Cython floats are modelled as exact
rationals, C `int` as `Int`, unicode code points as `Nat`, and in-place
mutation of the glyph list as explicit state passing returning a new list.
The constants `SPLIT_*` and `RUBY_*` from the included `linebreak.pxi` are
modelled as inductive types; their numeric values are never used by the
translated code. -/

/-- The split classes `SPLIT_NONE`, `SPLIT_BEFORE`, `SPLIT_INSTEAD`,
`SPLIT_IGNORE`. -/
inductive Split where
  | none
  | before
  | instead
  | ignore
  deriving DecidableEq, Repr

/-- The ruby roles `RUBY_NONE`, `RUBY_TOP`, `RUBY_BOTTOM`, `RUBY_ALT`. -/
inductive Ruby where
  | none
  | top
  | bottom
  | alt
  deriving DecidableEq, Repr

/-- The per-glyph record of `cdef class Glyph` (the fields used by the
layout passes; `variation`, `add_*` and the shader reference play no role
in any translated function). -/
structure Glyph where
  character : Nat := 0
  x : Int := 0
  y : Int := 0
  ascent : Int := 0
  descent : Int := 0
  line_spacing : Int := 0
  width : ℚ := 0
  advance : ℚ := 0
  split : Split := Split.none
  ruby : Ruby := Ruby.none
  time : ℚ := 0
  duration : ℚ := -1
  hyperlink : Nat := 0
  rtl : Bool := false
  index : Int := 0
  deriving DecidableEq, Repr

/-- The per-line record of `cdef class Line`.  `max_time` is a C float
field that starts at 0 and is filled in by `max_times`. -/
structure Line where
  y : Int := 0
  baseline : Int := 0
  height : Int := 0
  glyphs : List Glyph := []
  max_time : ℚ := 0
  eop : Bool := false
  deriving DecidableEq, Repr

/-- `MAX_WIDTH`, the maximum width of text laid out. -/
def MAX_WIDTH : Int := 8192

/-- A glyph that the layout passes skip entirely: `RUBY_TOP` or `RUBY_ALT`. -/
def rubySkip (g : Glyph) : Prop := g.ruby = Ruby.top ∨ g.ruby = Ruby.alt

instance (g : Glyph) : Decidable (rubySkip g) := by
  unfold rubySkip
  infer_instance

/-! ## Tokenizer (`tokenize`, `lenticular_bracket_ruby`) -/

/-- The run kinds `TEXT`, `TAG`, `PARAGRAPH` (`DISPLAYABLE` is never
produced by the tokenizer). -/
inductive TokenKind where
  | TEXT
  | TAG
  | PARAGRAPH
  deriving DecidableEq, Repr

/-- One tokenizer output entry: a kind together with the run contents. -/
abbrev Token := TokenKind × List Char

/-- The errors `tokenize` can raise: an empty text tag `\x7b\x7d`, or a
tag still open at the end of the string. -/
inductive MarkupError where
  | emptyTag
  | openTag
  deriving DecidableEq, Repr

/-- The tag body characters appended by the lenticular-bracket rewriting
(`rb`, `/rb`, `rt`, `/rt`). -/
def rbChars : List Char := ['r', 'b']

def rbCloseChars : List Char := ['/', 'r', 'b']

def rtChars : List Char := ['r', 't']

def rtCloseChars : List Char := ['/', 'r', 't']

/-- States of the `lenticular_bracket_ruby` scanner. -/
inductive LBRState where
  | text
  | left
  | right
  deriving DecidableEq, Repr

/-- The scanning loop of `lenticular_bracket_ruby`, carrying the state,
the pending buffer, the output accumulated so far and the remaining
characters. -/
def lbrLoop : LBRState → List Char → List Token → List Char → List Token
  | LBRState.text, buf, rv, [] =>
      if buf ≠ [] then rv ++ [(TokenKind.TEXT, buf)] else rv
  | LBRState.text, buf, rv, c :: rest =>
      if c = '【' then
        lbrLoop LBRState.left []
          (if buf ≠ [] then rv ++ [(TokenKind.TEXT, buf)] else rv) rest
      else
        lbrLoop LBRState.text (buf ++ [c]) rv rest
  | LBRState.left, buf, rv, [] =>
      if buf ≠ [] then rv ++ [(TokenKind.TEXT, '【' :: buf)] else rv
  | LBRState.left, buf, rv, c :: rest =>
      if c = '【' ∧ buf = [] then
        lbrLoop LBRState.text (buf ++ [c]) rv rest
      else if c = '】' then
        lbrLoop LBRState.text []
          (rv ++ [(TokenKind.TEXT, '【' :: buf ++ ['】'])]) rest
      else if c = '｜' ∨ c = '|' then
        lbrLoop LBRState.right []
          (rv ++ [(TokenKind.TAG, rbChars), (TokenKind.TEXT, buf),
                  (TokenKind.TAG, rbCloseChars)]) rest
      else
        lbrLoop LBRState.left (buf ++ [c]) rv rest
  | LBRState.right, buf, rv, [] =>
      if buf ≠ [] then
        rv ++ [(TokenKind.TAG, rtChars), (TokenKind.TEXT, buf),
               (TokenKind.TAG, rtCloseChars)]
      else rv
  | LBRState.right, buf, rv, c :: rest =>
      if c = '】' then
        lbrLoop LBRState.text []
          (rv ++ [(TokenKind.TAG, rtChars), (TokenKind.TEXT, buf),
                  (TokenKind.TAG, rtCloseChars)]) rest
      else
        lbrLoop LBRState.right (buf ++ [c]) rv rest

/-- `lenticular_bracket_ruby`: rewrites `【base｜reading】` into the
equivalent ruby tag runs. -/
def lenticular_bracket_ruby (s : List Char) : List Token :=
  lbrLoop LBRState.text [] [] s

/-- `finish_text` of `tokenize`: flush the text buffer, expanding
lenticular-bracket ruby when the buffer holds `【` and the configuration
flag `renpy.config.lenticular_bracket_ruby` (passed here as `flag`) is
set. -/
def finish_text (flag : Bool) (buf : List Char) (rv : List Token) : List Token :=
  if '【' ∈ buf ∧ flag then rv ++ lenticular_bracket_ruby buf
  else rv ++ [(TokenKind.TEXT, buf)]

/-- States of the `tokenize` scanner (`TEXT_STATE`, `LEFT_BRACE_STATE`,
`TAG_STATE`). -/
inductive TkState where
  | text
  | leftBrace
  | tag
  deriving DecidableEq, Repr

/-- The scanning loop of `tokenize`. -/
def tkLoop (flag : Bool) : TkState → List Char → List Token → List Char →
    Except MarkupError (List Token)
  | TkState.text, buf, rv, [] =>
      Except.ok (if buf ≠ [] then finish_text flag buf rv else rv)
  | TkState.text, buf, rv, c :: rest =>
      if c = '\n' then
        tkLoop flag TkState.text []
          ((if buf ≠ [] then finish_text flag buf rv else rv)
            ++ [(TokenKind.PARAGRAPH, [])]) rest
      else if c = '{' then
        tkLoop flag TkState.leftBrace buf rv rest
      else
        tkLoop flag TkState.text (buf ++ [c]) rv rest
  | TkState.leftBrace, _, _, [] => Except.error MarkupError.openTag
  | TkState.leftBrace, buf, rv, c :: rest =>
      if c = '{' then
        tkLoop flag TkState.text (buf ++ [c]) rv rest
      else if c = '}' then
        Except.error MarkupError.emptyTag
      else
        tkLoop flag TkState.tag [c]
          (if buf ≠ [] then finish_text flag buf rv else rv) rest
  | TkState.tag, _, _, [] => Except.error MarkupError.openTag
  | TkState.tag, buf, rv, c :: rest =>
      if c = '}' then
        tkLoop flag TkState.text [] (rv ++ [(TokenKind.TAG, buf)]) rest
      else
        tkLoop flag TkState.tag (buf ++ [c]) rv rest

/-- `tokenize`: split a marked-up string into `TEXT`, `TAG` and
`PARAGRAPH` runs.  `flag` is `renpy.config.lenticular_bracket_ruby`. -/
def tokenize (flag : Bool) (s : List Char) : Except MarkupError (List Token) :=
  if s = [] then Except.ok []
  else if '{' ∉ s ∧ '\n' ∉ s ∧ '【' ∉ s then Except.ok [(TokenKind.TEXT, s)]
  else tkLoop flag TkState.text [] [] s

/-- Whether an `Except` result is an error. -/
def isError {ε α : Type} : Except ε α → Bool
  | Except.error _ => true
  | Except.ok _ => false

mutual

/-- Spec-side predicate, following the claim's words: the string contains a
tag opened with an (unescaped) brace that is never closed before the end of
the input, or an empty tag.  Scanning outside any tag. -/
def hasMarkupError : List Char → Bool
  | [] => false
  | c :: rest => if c = '{' then afterOpenError rest else hasMarkupError rest

/-- Spec-side predicate: scanning just after an opening brace.  A second
brace is the escape for a literal brace; an immediate closing brace is an
empty tag; end of input means the tag was never closed. -/
def afterOpenError : List Char → Bool
  | [] => true
  | c :: rest =>
      if c = '{' then hasMarkupError rest
      else if c = '}' then true
      else insideTagError rest

/-- Spec-side predicate: scanning inside a tag body; end of input before
the closing brace means the tag was never closed. -/
def insideTagError : List Char → Bool
  | [] => true
  | c :: rest => if c = '}' then hasMarkupError rest else insideTagError rest

end

/-- The spec-side error predicate that corresponds to each scanner state. -/
def stateError : TkState → List Char → Bool
  | TkState.text => hasMarkupError
  | TkState.leftBrace => afterOpenError
  | TkState.tag => insideTagError

lemma tkLoop_error (flag : Bool) (s : List Char) : ∀ (st : TkState)
    (buf : List Char) (rv : List Token),
    isError (tkLoop flag st buf rv s) = stateError st s := by
  induction s with
  | nil =>
      intro st buf rv
      cases st <;>
        simp [tkLoop, stateError, hasMarkupError, afterOpenError,
          insideTagError, isError]
  | cons c rest ih =>
      intro st buf rv
      cases st with
      | text =>
          simp only [tkLoop, stateError, hasMarkupError]
          by_cases hn : c = '\n'
          · have hb : c ≠ '{' := by subst hn; decide
            rw [if_pos hn, if_neg hb, ih]
            simp [stateError]
          · rw [if_neg hn]
            by_cases hb : c = '{'
            · rw [if_pos hb, if_pos hb, ih]
              simp [stateError]
            · rw [if_neg hb, if_neg hb, ih]
              simp [stateError]
      | leftBrace =>
          simp only [tkLoop, stateError, afterOpenError]
          by_cases hb : c = '{'
          · rw [if_pos hb, if_pos hb, ih]
            simp [stateError]
          · rw [if_neg hb, if_neg hb]
            by_cases hc : c = '}'
            · rw [if_pos hc, if_pos hc]
              simp [isError]
            · rw [if_neg hc, if_neg hc, ih]
              simp [stateError]
      | tag =>
          simp only [tkLoop, stateError, insideTagError]
          by_cases hc : c = '}'
          · rw [if_pos hc, if_pos hc, ih]
            simp [stateError]
          · rw [if_neg hc, if_neg hc, ih]
            simp [stateError]

lemma hasMarkupError_of_no_brace (s : List Char) (h : '{' ∉ s) :
    hasMarkupError s = false := by
  induction s with
  | nil => simp [hasMarkupError]
  | cons c rest ih =>
      have hc : c ≠ '{' := fun hc => h (hc ▸ List.mem_cons_self c rest)
      have hr : '{' ∉ rest := fun hr => h (List.mem_cons_of_mem c hr)
      simp [hasMarkupError, hc, ih hr]

/-- C4: `tokenize` reports a markup error exactly when the input contains a
tag opened with an unescaped brace that is never closed before the end of
the input, or an empty tag; on every other input it returns normally, and
an empty input yields an empty sequence. -/
theorem tokenize_error_characterization :
    (∀ (flag : Bool) (s : List Char),
      isError (tokenize flag s) = hasMarkupError s) ∧
    (∀ flag : Bool, tokenize flag [] = Except.ok []) := by
  constructor
  · intro flag s
    unfold tokenize
    by_cases hs : s = []
    · subst hs
      simp [isError, hasMarkupError]
    · rw [if_neg hs]
      by_cases hfast : '{' ∉ s ∧ '\n' ∉ s ∧ '【' ∉ s
      · rw [if_pos hfast]
        simp [isError, hasMarkupError_of_no_brace s hfast.1]
      · rw [if_neg hfast, tkLoop_error]
        simp [stateError]
  · intro flag
    simp [tokenize]

/-- C3 (counterexample): the empty string contains none of the three
special characters, yet `tokenize` returns the empty sequence rather than
exactly one `TEXT` entry. -/
theorem tokenize_empty_not_single_text :
    tokenize true [] = Except.ok [] ∧
      tokenize true [] ≠ Except.ok [(TokenKind.TEXT, ([] : List Char))] := by
  refine ⟨rfl, ?_⟩
  intro h
  simp [tokenize] at h

/-- C3 (amended): for every nonempty string containing none of the
characters `\x7b`, newline, or the opening lenticular bracket, `tokenize`
returns exactly one `TEXT` entry whose text equals the input string. -/
theorem tokenize_plain_single_text (flag : Bool) (s : List Char)
    (hne : s ≠ []) (h1 : '{' ∉ s) (h2 : '\n' ∉ s) (h3 : '【' ∉ s) :
    tokenize flag s = Except.ok [(TokenKind.TEXT, s)] := by
  unfold tokenize
  rw [if_neg hne, if_pos ⟨h1, h2, h3⟩]

theorem tokenize_plain_single_text_witness :
    (['a'] : List Char) ≠ [] ∧
      tokenize true ['a'] = Except.ok [(TokenKind.TEXT, ['a'])] :=
  ⟨by decide, tokenize_plain_single_text true ['a'] (by decide) (by decide)
    (by decide) (by decide)⟩

/-! ## `linebreak_nobreak` and `linebreak_list` -/

/-- `linebreak_nobreak`: linebreak without linebreaking — every glyph's
split field is set to `SPLIT_NONE`. -/
def linebreak_nobreak (glyphs : List Glyph) : List Glyph :=
  glyphs.map fun g => { g with split := Split.none }

/-- The accumulation loop of `linebreak_list`, carrying the lines built so
far and the current line (a line is the list of character code points). -/
def linebreak_list_loop : List (List Nat) → List Nat → List Glyph →
    List (List Nat)
  | rv, line, [] => if line ≠ [] then rv ++ [line] else rv
  | rv, line, g :: rest =>
      match g.split with
      | Split.instead => linebreak_list_loop (rv ++ [line]) [] rest
      | Split.before => linebreak_list_loop (rv ++ [line]) [g.character] rest
      | _ => linebreak_list_loop rv (line ++ [g.character]) rest

/-- `linebreak_list`: returns a list of strings (here, lists of code
points), one per broken line. -/
def linebreak_list (glyphs : List Glyph) : List (List Nat) :=
  linebreak_list_loop [] [] glyphs

lemma linebreak_list_loop_nobreak (gs : List Glyph) :
    ∀ (rv : List (List Nat)) (line : List Nat),
    linebreak_list_loop rv line (linebreak_nobreak gs) =
      if line ++ gs.map Glyph.character ≠ [] then
        rv ++ [line ++ gs.map Glyph.character]
      else rv := by
  induction gs with
  | nil => intro rv line; simp [linebreak_nobreak, linebreak_list_loop]
  | cons g rest ih =>
      intro rv line
      have h1 : linebreak_nobreak (g :: rest) =
          { g with split := Split.none } :: linebreak_nobreak rest := rfl
      rw [h1]
      show linebreak_list_loop rv (line ++ [g.character])
          (linebreak_nobreak rest) = _
      rw [ih]
      simp

/-- C6 (counterexample): on the empty glyph list, `linebreak_nobreak`
followed by `linebreak_list` returns the empty list, not a single-element
list. -/
theorem linebreak_list_nobreak_empty :
    linebreak_list (linebreak_nobreak []) = [] ∧
      linebreak_list (linebreak_nobreak []) ≠
        [List.map Glyph.character []] := by
  constructor
  · rfl
  · intro h
    simp [linebreak_list, linebreak_nobreak, linebreak_list_loop] at h

/-- C6 (amended): for every NONEMPTY glyph list, `linebreak_nobreak`
followed by `linebreak_list` returns a single-element list whose sole
element is the concatenation of all the glyphs' characters. -/
theorem linebreak_list_nobreak (gs : List Glyph) (hne : gs ≠ []) :
    linebreak_list (linebreak_nobreak gs) = [gs.map Glyph.character] := by
  unfold linebreak_list
  rw [linebreak_list_loop_nobreak]
  simp [hne]

theorem linebreak_list_nobreak_witness :
    ([({ character := 97 } : Glyph)] ≠ []) ∧
      linebreak_list (linebreak_nobreak [({ character := 97 } : Glyph)]) =
        [[97]] :=
  ⟨by decide, linebreak_list_nobreak [{ character := 97 }] (by decide)⟩

/-! ## `assign_times` -/

/-- The loop of `assign_times`: `tpg` is the time per glyph; the running
time `t` advances on every glyph that is not ruby top/alt, ruby top/alt
glyphs get the sentinel time `-1`. -/
def assign_times_loop (tpg : ℚ) : ℚ → List Glyph → List Glyph × ℚ
  | t, [] => ([], t)
  | t, g :: rest =>
      if rubySkip g then
        let p := assign_times_loop tpg t rest
        ({ g with time := -1 } :: p.1, p.2)
      else
        let t2 := t + tpg
        let p := assign_times_loop tpg t2 rest
        ({ g with time := t2, duration := tpg } :: p.1, p.2)

/-- `assign_times`: assign a display time to each glyph, starting at `t`
with `gps` glyphs per second, returning the updated glyphs and the time of
the first glyph of the next block. -/
def assign_times (t : ℚ) (gps : ℚ) (glyphs : List Glyph) :
    List Glyph × ℚ :=
  assign_times_loop (if gps = 0 then 0 else 1 / gps) t glyphs

/-- The number of glyphs of a list that are not ruby top/alt (the glyphs
that receive times). -/
def nonRubyCount : List Glyph → ℕ
  | [] => 0
  | g :: rest => (if rubySkip g then 0 else 1) + nonRubyCount rest

lemma assign_times_loop_length (tpg : ℚ) (gs : List Glyph) : ∀ t : ℚ,
    (assign_times_loop tpg t gs).1.length = gs.length := by
  induction gs with
  | nil => intro t; rfl
  | cons g rest ih =>
      intro t
      by_cases h : rubySkip g <;>
        simp [assign_times_loop, h, ih]

lemma assign_times_loop_final (tpg : ℚ) (gs : List Glyph) : ∀ t : ℚ,
    (assign_times_loop tpg t gs).2 = t + (nonRubyCount gs : ℚ) * tpg := by
  induction gs with
  | nil => intro t; simp [assign_times_loop, nonRubyCount]
  | cons g rest ih =>
      intro t
      by_cases h : rubySkip g
      · simp [assign_times_loop, h, ih, nonRubyCount]
      · simp only [assign_times_loop, if_neg h, ih, nonRubyCount]
        push_cast
        ring

lemma assign_times_loop_time (tpg : ℚ) (gs : List Glyph) : ∀ (t : ℚ)
    (i : ℕ) (g : Glyph), gs[i]? = some g →
    ((assign_times_loop tpg t gs).1[i]?).map Glyph.time =
      some (if rubySkip g then -1
            else t + (nonRubyCount (gs.take (i + 1)) : ℚ) * tpg) := by
  induction gs with
  | nil => intro t i g h; simp at h
  | cons g0 rest ih =>
      intro t i g h
      by_cases h0 : rubySkip g0
      · simp only [assign_times_loop, if_pos h0]
        match i with
        | 0 =>
            simp only [List.getElem?_cons_zero, Option.some.injEq] at h
            subst h
            simp [h0]
        | i + 1 =>
            simp only [List.getElem?_cons_succ] at h
            have := ih t i g h
            simpa [nonRubyCount, h0] using this
      · simp only [assign_times_loop, if_neg h0]
        match i with
        | 0 =>
            simp only [List.getElem?_cons_zero, Option.some.injEq] at h
            subst h
            simp [h0, nonRubyCount]
        | i + 1 =>
            simp only [List.getElem?_cons_succ] at h
            have := ih (t + tpg) i g h
            rw [show ((g0 :: rest).take (i + 1 + 1)) = g0 :: rest.take (i + 1)
              from rfl]
            simp only [nonRubyCount, if_neg h0]
            rw [List.getElem?_cons_succ]
            rw [this]
            congr 1
            by_cases hg : rubySkip g
            · simp [hg]
            · simp only [if_neg hg]
              push_cast
              ring

lemma nonRubyCount_append (l1 l2 : List Glyph) :
    nonRubyCount (l1 ++ l2) = nonRubyCount l1 + nonRubyCount l2 := by
  induction l1 with
  | nil => simp [nonRubyCount]
  | cons g rest ih => simp [nonRubyCount, ih]; ring

lemma nonRubyCount_take_le (gs : List Glyph) (k : ℕ) :
    nonRubyCount (gs.take k) ≤ nonRubyCount gs := by
  conv_rhs => rw [← List.take_append_drop k gs]
  rw [nonRubyCount_append]
  exact Nat.le_add_right _ _

lemma nonRubyCount_take_lt (gs : List Glyph) (i j : ℕ) (g : Glyph)
    (hij : i + 1 ≤ j) (hj : gs[j]? = some g) (hg : ¬ rubySkip g) :
    nonRubyCount (gs.take (i + 1)) < nonRubyCount (gs.take (j + 1)) := by
  have hjlen : j < gs.length := by
    by_contra hcon
    rw [List.getElem?_eq_none (Nat.le_of_not_lt hcon)] at hj
    exact Option.noConfusion hj
  have htake : gs.take (j + 1) = gs.take j ++ [g] := by
    rw [List.take_succ, hj]
    rfl
  have h1 : nonRubyCount (gs.take (i + 1)) ≤ nonRubyCount (gs.take j) := by
    have : gs.take (i + 1) = (gs.take j).take (i + 1) := by
      rw [List.take_take, Nat.min_eq_left hij]
    rw [this]
    exact nonRubyCount_take_le _ _
  rw [htake, nonRubyCount_append]
  simp only [nonRubyCount, if_neg hg]
  omega

/-- C7: for every start time `t`, every rate `gps > 0`, and every glyph
list, `assign_times` gives the non-ruby glyphs strictly increasing reveal
times spaced exactly `1/gps` apart starting at `t + 1/gps` (the `k`-th
timed glyph gets `t + k/gps`), gives every ruby-top and ruby-alt glyph
time `-1`, and returns the final accumulated time as the start time of the
next block. -/
theorem assign_times_spacing (t gps : ℚ) (gs : List Glyph)
    (hgps : 0 < gps) :
    (assign_times t gps gs).1.length = gs.length ∧
    (∀ (i : ℕ) (g : Glyph), gs[i]? = some g →
      (((assign_times t gps gs).1[i]?).map Glyph.time) =
        some (if rubySkip g then -1
              else t + (nonRubyCount (gs.take (i + 1)) : ℚ) / gps)) ∧
    (∀ (i j : ℕ) (gi gj : Glyph), i < j →
      gs[i]? = some gi → gs[j]? = some gj →
      ¬ rubySkip gi → ¬ rubySkip gj →
      ((((assign_times t gps gs).1[i]?).map Glyph.time).getD 0 <
        (((assign_times t gps gs).1[j]?).map Glyph.time).getD 0)) ∧
    (assign_times t gps gs).2 = t + (nonRubyCount gs : ℚ) / gps := by
  have hne : gps ≠ 0 := ne_of_gt hgps
  have htpg : (if gps = 0 then (0 : ℚ) else 1 / gps) = 1 / gps := if_neg hne
  have hdiv : ∀ k : ℕ, (k : ℚ) * (1 / gps) = (k : ℚ) / gps := by
    intro k
    rw [mul_one_div]
  refine ⟨?_, ?_, ?_, ?_⟩
  · unfold assign_times
    rw [htpg]
    exact assign_times_loop_length _ _ _
  · intro i g h
    unfold assign_times
    rw [htpg, assign_times_loop_time (1 / gps) gs t i g h, hdiv]
  · intro i j gi gj hij hi hj hgi hgj
    unfold assign_times
    rw [htpg, assign_times_loop_time (1 / gps) gs t i gi hi,
      assign_times_loop_time (1 / gps) gs t j gj hj]
    simp only [if_neg hgi, if_neg hgj, Option.getD_some]
    have hcnt := nonRubyCount_take_lt gs i j gj hij hj hgj
    have : (nonRubyCount (gs.take (i + 1)) : ℚ) <
        (nonRubyCount (gs.take (j + 1)) : ℚ) := by exact_mod_cast hcnt
    have := mul_lt_mul_of_pos_right this (by positivity : (0 : ℚ) < 1 / gps)
    linarith
  · unfold assign_times
    rw [htpg, assign_times_loop_final, hdiv]

theorem assign_times_spacing_witness :
    (0 : ℚ) < 2 ∧
      (assign_times 0 2 [({ ruby := Ruby.none } : Glyph),
        ({ ruby := Ruby.top } : Glyph)]).2 = 1 / 2 := by
  refine ⟨by norm_num, ?_⟩
  have h := (assign_times_spacing 0 2
    [({ ruby := Ruby.none } : Glyph), ({ ruby := Ruby.top } : Glyph)]
    (by norm_num)).2.2.2
  rw [h]
  simp only [nonRubyCount, rubySkip]
  norm_num [show ¬(Ruby.none = Ruby.top ∨ Ruby.none = Ruby.alt) from
    by decide]

/-! ## `max_times` -/

/-- The loop of `max_times`: note that the running maximum `m` is carried
across lines (it is initialised once, to 0, in `max_times`). -/
def max_times_loop : ℚ → List Line → List Line × ℚ
  | m, [] => ([], m)
  | m, line :: rest =>
      let m2 := line.glyphs.foldl
        (fun acc g => if g.time > acc then g.time else acc) m
      let p := max_times_loop m2 rest
      ({ line with max_time := m2 } :: p.1, p.2)

/-- `max_times`: set the `max_time` field on each line, returning the
updated lines and the final running maximum. -/
def max_times (l : List Line) : List Line × ℚ :=
  max_times_loop 0 l

lemma foldl_time_max (gs : List Glyph) : ∀ m : ℚ,
    gs.foldl (fun acc g => if g.time > acc then g.time else acc) m =
      (gs.map Glyph.time).foldl max m := by
  induction gs with
  | nil => intro m; rfl
  | cons g rest ih =>
      intro m
      simp only [List.foldl_cons, List.map_cons]
      rw [ih]
      congr 1
      rcases lt_or_ge m g.time with h | h
      · rw [if_pos h, max_eq_right h.le]
      · rw [if_neg (not_lt.mpr h), max_eq_left h]

lemma max_times_loop_running (l : List Line) : ∀ (m : ℚ) (i : ℕ),
    i < l.length →
    ((max_times_loop m l).1[i]?).map Line.max_time =
      some ((((l.take (i + 1)).flatMap Line.glyphs).map Glyph.time).foldl
        max m) := by
  induction l with
  | nil => intro m i h; simp at h
  | cons line rest ih =>
      intro m i h
      match i with
      | 0 =>
          simp only [max_times_loop, List.getElem?_cons_zero, Option.map_some]
          rw [foldl_time_max]
          simp [List.take_succ]
      | i + 1 =>
          simp only [max_times_loop, List.getElem?_cons_succ]
          have hlen : i < rest.length := by
            simpa using Nat.lt_of_succ_lt_succ h
          rw [ih _ i hlen]
          rw [foldl_time_max]
          congr 1
          rw [show ((line :: rest).take (i + 1 + 1)) =
            line :: rest.take (i + 1) from rfl]
          simp [List.foldl_append]

/-- C2 (counterexample): `max_times` carries its running maximum across
lines, so a line following a later-revealed line receives the earlier
line's larger maximum, not the maximum among its own glyphs (which is 3
here). -/
theorem max_times_not_own_max :
    ((max_times [({ glyphs := [{ time := 5 }] } : Line),
        ({ glyphs := [{ time := 3 }] } : Line)]).1.map Line.max_time) =
      [5, 5] ∧ (5 : ℚ) ≠ 3 := by
  constructor
  · norm_num [max_times, max_times_loop]
  · norm_num

/-- C2 (amended): after `max_times` runs, each line's `max_time` field
equals the running maximum — the maximum of 0 and the reveal times of all
glyphs on that line and on every earlier line (not just the line's own
glyphs). -/
theorem max_times_running_max (l : List Line) (i : ℕ) (h : i < l.length) :
    ((max_times l).1[i]?).map Line.max_time =
      some ((((l.take (i + 1)).flatMap Line.glyphs).map Glyph.time).foldl
        max 0) :=
  max_times_loop_running l 0 i h

theorem max_times_running_max_witness :
    (0 : ℕ) < [({ glyphs := [{ time := 5 }] } : Line)].length ∧
      ((max_times [({ glyphs := [{ time := 5 }] } : Line)]).1[0]?).map
        Line.max_time = some 5 := by
  constructor
  · decide
  · rw [max_times_running_max [({ glyphs := [{ time := 5 }] } : Line)] 0
      (by decide)]
    norm_num

/-! ## `reverse_lines` -/

/-- Mark a glyph as right-to-left (`g.rtl = True`). -/
def setRTL (g : Glyph) : Glyph := { g with rtl := true }

/-- The loop of `reverse_lines`: accumulate the current block; a
`SPLIT_INSTEAD` glyph flushes the reversed block followed by the marker
glyph itself (which is not marked rtl); other glyphs are marked rtl and
appended to the block. -/
def reverse_lines_loop : List Glyph → List Glyph → List Glyph → List Glyph
  | rv, block, [] => rv ++ block.reverse
  | rv, block, g :: rest =>
      if g.split = Split.instead then
        reverse_lines_loop (rv ++ block.reverse ++ [g]) [] rest
      else
        reverse_lines_loop rv (block ++ [setRTL g]) rest

/-- `reverse_lines`: reverses each line in glyphs, while keeping the lines
themselves in the original order. -/
def reverse_lines (glyphs : List Glyph) : List Glyph :=
  reverse_lines_loop [] [] glyphs

/-- Not a `SPLIT_INSTEAD` marker (block membership predicate). -/
def notInsteadP : Glyph → Bool := fun g => decide (g.split ≠ Split.instead)

/-- Spec-side description, following the claim's words: split the list
into maximal blocks delimited by `SPLIT_INSTEAD` glyphs; within each block
the glyph order is reversed and every glyph is marked rtl; the marker
glyph itself trails its (reversed) block unchanged; blocks stay in
order. -/
def reverse_lines_spec (gs : List Glyph) : List Glyph :=
  let blk := gs.takeWhile notInsteadP
  match hr : gs.dropWhile notInsteadP with
  | [] => (blk.map setRTL).reverse
  | m :: r => (blk.map setRTL).reverse ++ m :: reverse_lines_spec r
termination_by gs.length
decreasing_by
  have h1 : (gs.dropWhile notInsteadP).length ≤ gs.length :=
    (List.dropWhile_suffix notInsteadP).length_le
  rw [hr] at h1
  simp only [List.length_cons] at h1
  omega

/-- The tail of the spec-side description after the first block. -/
def reverseTailSpec : List Glyph → List Glyph
  | [] => []
  | m :: r => m :: reverse_lines_spec r

lemma reverse_lines_spec_eq (gs : List Glyph) :
    reverse_lines_spec gs =
      ((gs.takeWhile notInsteadP).map setRTL).reverse ++
        reverseTailSpec (gs.dropWhile notInsteadP) := by
  rw [reverse_lines_spec]
  cases h : gs.dropWhile notInsteadP with
  | nil => simp [reverseTailSpec]
  | cons m r => simp [reverseTailSpec]

lemma reverse_lines_loop_spec (gs : List Glyph) : ∀ rv block : List Glyph,
    reverse_lines_loop rv block gs =
      rv ++ (block ++ (gs.takeWhile notInsteadP).map setRTL).reverse ++
        reverseTailSpec (gs.dropWhile notInsteadP) := by
  induction gs with
  | nil =>
      intro rv block
      simp [reverse_lines_loop, reverseTailSpec]
  | cons g rest ih =>
      intro rv block
      by_cases hins : g.split = Split.instead
      · have hp : notInsteadP g = false := by simp [notInsteadP, hins]
        simp only [reverse_lines_loop, if_pos hins, List.takeWhile_cons,
          List.dropWhile_cons, hp, Bool.false_eq_true, ite_false]
        rw [ih]
        rw [show reverseTailSpec (g :: rest) = g :: reverse_lines_spec rest
          from rfl]
        rw [reverse_lines_spec_eq]
        simp
      · have hp : notInsteadP g = true := by simp [notInsteadP, hins]
        simp only [reverse_lines_loop, if_neg hins, List.takeWhile_cons,
          List.dropWhile_cons, hp, ite_true]
        rw [ih]
        simp

/-- C8: `reverse_lines` returns the list in which, within each maximal
block delimited by `SPLIT_INSTEAD` glyphs, the glyph order is reversed and
every reversed glyph has its rtl flag set, the blocks remain in original
order, and each `SPLIT_INSTEAD` marker glyph stays in trailing position of
its block. -/
theorem reverse_lines_blockwise (gs : List Glyph) :
    reverse_lines gs = reverse_lines_spec gs := by
  unfold reverse_lines
  rw [reverse_lines_loop_spec, reverse_lines_spec_eq]
  simp

/-! ## `align_and_justify` -/

/-- Truncation toward zero of a rational, the semantics of the C cast
`<int> f` applied to a float. -/
def rat_trunc (q : ℚ) : ℤ := if 0 ≤ q then ⌊q⌋ else -⌊-q⌋

/-- One step of the per-line statistics loop of `align_and_justify`: count
space glyphs and track `max_x`, which the source assigns (not maximises)
to `<int>(g.x + g.width)` of each non-ruby glyph. -/
def align_stats_step (p : ℕ × ℤ) (g : Glyph) : ℕ × ℤ :=
  if rubySkip g then p
  else ((if g.character = 0x20 then p.1 + 1 else p.1),
        rat_trunc ((g.x : ℚ) + g.width))

/-- The space count of a line, as computed by `align_and_justify`. -/
def align_spaces (l : Line) : ℕ :=
  (l.glyphs.foldl align_stats_step (0, 0)).1

/-- The `max_x` of a line, as computed by `align_and_justify`. -/
def align_max_x (l : Line) : ℤ :=
  (l.glyphs.foldl align_stats_step (0, 0)).2

/-- The justification loop of `align_and_justify`: `jps` is
`justify_per_space`, the running `off` is `justify_offset` (bumped before
the x update when a space is seen); ruby top/alt glyphs are skipped. -/
def justify_glyphs (jps : ℚ) : ℚ → List Glyph → List Glyph
  | _, [] => []
  | off, g :: rest =>
      if rubySkip g then g :: justify_glyphs jps off rest
      else
        let off2 := if g.character = 0x20 then off + jps else off
        { g with x := g.x + rat_trunc off2 } :: justify_glyphs jps off2 rest

/-- The per-line body of `align_and_justify`. -/
def align_line (width : ℤ) (text_align : ℚ) (justify : Bool) (l : Line) :
    Line :=
  let st := l.glyphs.foldl align_stats_step (0, 0)
  if st.2 ≥ MAX_WIDTH then l
  else if justify ∧ st.1 ≠ 0 ∧ ¬l.eop then
    let jps : ℚ := ((width - st.2 : ℤ) : ℚ) / (st.1 : ℚ)
    { l with glyphs := justify_glyphs jps (1 / 2) l.glyphs }
  else
    let offset := rat_trunc (((width - st.2 : ℤ) : ℚ) * text_align)
    { l with glyphs := l.glyphs.map fun g =>
        if rubySkip g then g else { g with x := g.x + offset } }

/-- `align_and_justify`: handle text alignment and justification. -/
def align_and_justify (lines : List Line) (width : ℤ) (text_align : ℚ)
    (justify : Bool) : List Line :=
  if ¬justify ∧ text_align = 0 then lines
  else lines.map (align_line width text_align justify)

lemma rat_trunc_half : rat_trunc (1 / 2) = 0 := by
  rw [rat_trunc, if_pos (by norm_num)]
  rw [Int.floor_eq_zero_iff]
  constructor <;> norm_num

lemma rat_trunc_half_add (S : ℤ) (hS : 0 ≤ S) :
    rat_trunc (1 / 2 + (S : ℚ)) = S := by
  have hSq : (0 : ℚ) ≤ (S : ℚ) := by exact_mod_cast hS
  rw [rat_trunc, if_pos (by linarith), Int.floor_add_int]
  have h0 : ⌊(1 / 2 : ℚ)⌋ = 0 := by
    rw [Int.floor_eq_zero_iff]
    constructor <;> norm_num
  rw [h0, zero_add]

lemma glyph_set_x_self (g : Glyph) : ({ g with x := g.x + 0 }) = g := by
  cases g
  simp

lemma align_stats_fst_const (gs : List Glyph)
    (h : ∀ g ∈ gs, rubySkip g ∨ g.character ≠ 0x20) : ∀ p : ℕ × ℤ,
    (gs.foldl align_stats_step p).1 = p.1 := by
  induction gs with
  | nil => intro p; rfl
  | cons g rest ih =>
      intro p
      have hg := h g (List.mem_cons_self g rest)
      have hrest : ∀ g ∈ rest, rubySkip g ∨ g.character ≠ 0x20 := fun g hgm =>
        h g (List.mem_cons_of_mem _ hgm)
      rw [List.foldl_cons]
      rcases hg with hg | hg
      · rw [show align_stats_step p g = p from if_pos hg]
        exact ih hrest p
      · by_cases hsk : rubySkip g
        · rw [show align_stats_step p g = p from if_pos hsk]
          exact ih hrest p
        · rw [show align_stats_step p g =
            (p.1, rat_trunc ((g.x : ℚ) + g.width)) from by
              simp [align_stats_step, hsk, hg]]
          exact ih hrest _

lemma justify_glyphs_pre (jps off : ℚ) (hoff : rat_trunc off = 0)
    (pre rest : List Glyph)
    (hpre : ∀ g ∈ pre, rubySkip g ∨ g.character ≠ 0x20) :
    justify_glyphs jps off (pre ++ rest) =
      pre ++ justify_glyphs jps off rest := by
  induction pre with
  | nil => simp
  | cons g pre' ih =>
      have hg := hpre g (List.mem_cons_self g pre')
      have hpre' : ∀ g ∈ pre', rubySkip g ∨ g.character ≠ 0x20 :=
        fun g hgm => hpre g (List.mem_cons_of_mem _ hgm)
      rw [List.cons_append]
      by_cases hsk : rubySkip g
      · rw [show justify_glyphs jps off (g :: (pre' ++ rest)) =
          g :: justify_glyphs jps off (pre' ++ rest) from by
            simp [justify_glyphs, hsk]]
        rw [ih hpre']
        rfl
      · have hch : g.character ≠ 0x20 := hg.resolve_left hsk
        rw [show justify_glyphs jps off (g :: (pre' ++ rest)) =
          { g with x := g.x + rat_trunc off } ::
            justify_glyphs jps off (pre' ++ rest) from by
              simp [justify_glyphs, hsk, hch]]
        rw [hoff, glyph_set_x_self, ih hpre']
        rfl

lemma justify_glyphs_const (jps off : ℚ) (gs : List Glyph)
    (hgs : ∀ g ∈ gs, rubySkip g ∨ g.character ≠ 0x20) :
    justify_glyphs jps off gs = gs.map fun g =>
      if rubySkip g then g else { g with x := g.x + rat_trunc off } := by
  induction gs with
  | nil => rfl
  | cons g rest ih =>
      have hg := hgs g (List.mem_cons_self g rest)
      have hrest : ∀ g ∈ rest, rubySkip g ∨ g.character ≠ 0x20 :=
        fun g hgm => hgs g (List.mem_cons_of_mem _ hgm)
      by_cases hsk : rubySkip g
      · simp only [justify_glyphs, if_pos hsk, List.map_cons, ih hrest]
      · have hch : g.character ≠ 0x20 := hg.resolve_left hsk
        simp only [justify_glyphs, if_neg hsk, if_neg hch, List.map_cons,
          ih hrest]

/-- The concrete line of the C9 counterexample: one space, ink `max_x = 1`
(below `MAX_WIDTH`), an ordinary glyph and a ruby-top glyph after the
space, not the final line of the paragraph. -/
def c9cexLine : Line :=
  { glyphs := [{ character := 97, x := 0, width := 0 },
               { character := 0x20, x := 0, width := 0 },
               { character := 98, x := 0, width := 1 },
               { character := 99, x := 0, ruby := Ruby.top }] }

/-- C9 (counterexample): justifying this non-final line with exactly one
space and negative slack `S = width - ink = 0 - 1 = -1` (the ink is below
`MAX_WIDTH`).  The code truncates `S + 0.5` toward zero, moving each glyph
after the space by 0 (the ruby-top glyph is not moved at all), while the
claim demands an increase of `floor(S + 0.5) = -1`. -/
theorem align_and_justify_negative_slack :
    ((align_and_justify [c9cexLine] 0 0 true).map
        fun l => l.glyphs.map Glyph.x) = [[0, 0, 0, 0]] ∧
      ⌊((0 : ℚ) - 1) + 1 / 2⌋ = -1 ∧ (0 : ℤ) ≠ 0 + (-1) := by
  refine ⟨?_, by norm_num, by decide⟩
  simp [c9cexLine, align_and_justify, align_line, align_stats_step,
    justify_glyphs, rubySkip, MAX_WIDTH, rat_trunc]
  norm_num

lemma align_line_single_space (width : ℤ) (text_align : ℚ) (l : Line)
    (pre post : List Glyph) (gsp : Glyph) (mx : ℤ)
    (hglyphs : l.glyphs = pre ++ gsp :: post)
    (hmx : (l.glyphs.foldl align_stats_step (0, 0)).2 = mx)
    (hgsk : ¬ rubySkip gsp) (hgch : gsp.character = 0x20)
    (hpre : ∀ g ∈ pre, rubySkip g ∨ g.character ≠ 0x20)
    (hpost : ∀ g ∈ post, rubySkip g ∨ g.character ≠ 0x20)
    (hmax : mx < MAX_WIDTH) (heop : l.eop = false)
    (hS : 0 ≤ width - mx) :
    align_line width text_align true l =
      { l with glyphs :=
        pre ++ { gsp with x := gsp.x + (width - mx) } ::
          post.map (fun g => if rubySkip g then g
            else { g with x := g.x + (width - mx) }) } := by
  have hspaces : (l.glyphs.foldl align_stats_step (0, 0)).1 = 1 := by
    rw [hglyphs, List.foldl_append, List.foldl_cons]
    rw [show align_stats_step (List.foldl align_stats_step (0, 0) pre) gsp =
      ((List.foldl align_stats_step (0, 0) pre).1 + 1,
        rat_trunc ((gsp.x : ℚ) + gsp.width)) from by
          simp [align_stats_step, hgsk, hgch]]
    rw [align_stats_fst_const post hpost]
    rw [align_stats_fst_const pre hpre]
  simp only [align_line]
  rw [hmx, hspaces]
  rw [if_neg (not_le.mpr hmax)]
  rw [if_pos (by
    refine ⟨?_, one_ne_zero, ?_⟩
    · simp
    · rw [heop]
      exact Bool.false_ne_true)]
  have hjps : ((width - mx : ℤ) : ℚ) / ((1 : ℕ) : ℚ) =
      ((width - mx : ℤ) : ℚ) := by norm_num
  rw [hjps]
  congr 1
  rw [hglyphs]
  rw [justify_glyphs_pre _ _ rat_trunc_half pre (gsp :: post) hpre]
  congr 1
  rw [show justify_glyphs ((width - mx : ℤ) : ℚ) (1 / 2) (gsp :: post) =
      { gsp with x := gsp.x +
          rat_trunc (1 / 2 + ((width - mx : ℤ) : ℚ)) } ::
        justify_glyphs ((width - mx : ℤ) : ℚ)
          (1 / 2 + ((width - mx : ℤ) : ℚ)) post from by
        simp [justify_glyphs, hgsk, hgch]]
  rw [rat_trunc_half_add _ hS]
  congr 1
  rw [justify_glyphs_const _ _ post hpost]
  simp only [rat_trunc_half_add _ hS]

/-- C9 (amended): when `align_and_justify` justifies a non-final line
containing exactly one space glyph with nonnegative slack
`S = width - max_x` and the line's ink below the maximum width, every
non-ruby glyph at or after that space has its x increased by exactly `S`
(the half-unit-rounded offset `trunc(S + 0.5)` equals `S` because the
slack is a nonnegative integer), ruby top/alt glyphs keep their x, and
every glyph before the space keeps its x unchanged. -/
theorem align_and_justify_single_space (lines : List Line) (width : ℤ)
    (text_align : ℚ) (k : ℕ) (l : Line) (pre post : List Glyph)
    (gsp : Glyph) (hl : lines[k]? = some l)
    (hglyphs : l.glyphs = pre ++ gsp :: post)
    (hgsk : ¬ rubySkip gsp) (hgch : gsp.character = 0x20)
    (hpre : ∀ g ∈ pre, rubySkip g ∨ g.character ≠ 0x20)
    (hpost : ∀ g ∈ post, rubySkip g ∨ g.character ≠ 0x20)
    (hmax : align_max_x l < MAX_WIDTH)
    (heop : l.eop = false)
    (hS : 0 ≤ width - align_max_x l) :
    (align_and_justify lines width text_align true)[k]? =
      some ({ l with glyphs :=
                pre ++ { gsp with x := gsp.x + (width - align_max_x l) } ::
                  post.map (fun g => if rubySkip g then g
                    else { g with
                      x := g.x + (width - align_max_x l) }) }) := by
  have hnotfast : ¬(¬(true : Bool) = true ∧ text_align = 0) := by simp
  rw [align_and_justify, if_neg hnotfast, List.getElem?_map, hl]
  rw [show Option.map (align_line width text_align true) (some l) =
    some (align_line width text_align true l) from rfl]
  congr 1
  exact align_line_single_space width text_align l pre post gsp
    (align_max_x l) hglyphs rfl hgsk hgch hpre hpost hmax heop hS

/-- The concrete line of the C9 witness: one space glyph between two
ordinary glyphs, ink `max_x = 3`. -/
def c9wLine : Line :=
  { glyphs := [{ character := 97, x := 0, width := 0 },
               { character := 32, x := 1, width := 1 },
               { character := 98, x := 2, width := 1 }] }

theorem align_and_justify_single_space_witness :
    (0 : ℤ) ≤ 5 - align_max_x c9wLine ∧
      ((align_and_justify [c9wLine] 5 0 true)[0]?.map
        (fun l => l.glyphs.map Glyph.x)) = some [0, 3, 4] := by
  have hmx : align_max_x c9wLine = 3 := by
    simp [align_max_x, align_stats_step, c9wLine, rubySkip, rat_trunc]
    norm_num
  refine ⟨by rw [hmx]; norm_num, ?_⟩
  rw [align_and_justify_single_space [c9wLine] 5 0 0 c9wLine
    [{ character := 97, x := 0, width := 0 }]
    [{ character := 98, x := 2, width := 1 }]
    { character := 32, x := 1, width := 1 }
    rfl rfl (by simp [rubySkip]) rfl
    (by intro g hg; simp at hg; subst hg; right; simp)
    (by intro g hg; simp at hg; subst hg; right; simp)
    (by rw [hmx]; norm_num [MAX_WIDTH]) rfl (by rw [hmx]; norm_num)]
  rw [hmx]
  simp [c9wLine, rubySkip]

/-! ## `annotate_unicode` (Unicode-tailored break classifier)

The numeric `BC_*` constants, the per-profile class tables
(`break_western`, `break_cjk_*`), the pairwise rule table `break_rules`
and the tailoring array `break_tailor` live in `linebreak.pxi`, which is
not part of the excerpt.  They are modelled from the spec as parameters:
a class type with the constructors the translated code tests explicitly,
a table function `break_classes : Nat → BC` (one per CJK profile — the
`cjk` argument of the source merely selects among the four tables, so
quantifying over the table covers every profile), a tailoring function,
and a pairwise rule function. -/

/-- The break classes.  `other n` stands for the remaining in-table
classes.  Modelled from the spec: §4.2 lists the table classes; `SP`,
`CB` and the unknown class `XX` lie at or above `BC_PITCH` (outside the
pairwise table). -/
inductive BC where
  | WJ
  | GL
  | CM
  | SP
  | CB
  | CL
  | CP
  | ID
  | AL
  | H2
  | H3
  | JL
  | JV
  | JT
  | XX
  | other (n : Nat)
  deriving DecidableEq, Repr

/-- Whether a class lies at or above `BC_PITCH`.  Modelled from the spec:
the normalisation step of `annotate_unicode` turns every class outside
the pairwise table except `SP` and `CB` into `AL`. -/
def bcAbovePitch : BC → Bool
  | BC.SP => true
  | BC.CB => true
  | BC.XX => true
  | _ => false

/-- The pairwise break rule outcomes: `^` prohibited, `%` indirect, `_`
direct, `@`/`#` the combining-mark variants (the code only tests for `%`
and `_`; everything else is treated as prohibited). -/
inductive BreakRule where
  | prohibited
  | indirect
  | direct
  | prohibitedCM
  | indirectCM
  deriving DecidableEq, Repr

/-- Replace a glyph's split field. -/
def setSplit (g : Glyph) (s : Split) : Glyph := { g with split := s }

/-- Replace the split field of the glyph at index `i` (the source mutates
`glyphs[space_pos]` in place). -/
def setSplitAt (l : List Glyph) (i : Nat) (s : Split) : List Glyph :=
  match l[i]? with
  | some g => l.set i (setSplit g s)
  | none => l

/-- The effective break class of code point `c` as computed at the top of
the `annotate_unicode` loop: supplementary ideographic plane → `ID`,
other non-basic planes → `AL` (both without tailoring); otherwise the
table class, demoted to `AL` by `no_ideographs` for ideograph/Hangul
classes, normalised to `AL` outside the table (except `SP`/`CB`), and
finally overridden by a tailoring different from `XX`. -/
def effective_class (break_classes break_tailor : Nat → BC)
    (no_ideographs : Bool) (c : Nat) : BC :=
  let pair : BC × BC :=
    if 0x20000 ≤ c ∧ c ≤ 0x2ffff then (BC.ID, BC.XX)
    else if c > 65535 then (BC.AL, BC.XX)
    else (break_classes c, break_tailor c)
  let new1 :=
    if no_ideographs ∧ (pair.1 = BC.H2 ∨ pair.1 = BC.H3 ∨ pair.1 = BC.ID ∨
        pair.1 = BC.JL ∨ pair.1 = BC.JV ∨ pair.1 = BC.JT) then BC.AL
    else pair.1
  let new2 :=
    if bcAbovePitch new1 = true ∧ new1 ≠ BC.SP ∧ new1 ≠ BC.CB then BC.AL
    else new1
  if pair.2 ≠ BC.XX then pair.2 else new2

/-- The main loop of `annotate_unicode` (positions `1 ≤ pos < len`),
carrying `old_type`, the pending `space_pos` (the source uses 0 for
"none", which is faithful because the loop starts at position 1) and the
glyphs processed so far. -/
def au_main (bcf btf : Nat → BC) (rules : BC → BC → BreakRule)
    (noi : Bool) : BC → Option Nat → List Glyph → List Glyph → List Glyph
  | _, _, done, [] => done
  | old_type, space_pos, done, g :: rest =>
      let new_type := effective_class bcf btf noi g.character
      if new_type = BC.SP then
        au_main bcf btf rules noi old_type (some done.length)
          (done ++ [setSplit g Split.none]) rest
      else if new_type = BC.CM then
        au_main bcf btf rules noi old_type space_pos
          (done ++ [setSplit g Split.none]) rest
      else if new_type = BC.CB then
        au_main bcf btf rules noi old_type space_pos
          (done ++ [setSplit g (if old_type = BC.WJ ∨ old_type = BC.GL then
            Split.none else Split.before)]) rest
      else if old_type = BC.CB then
        au_main bcf btf rules noi old_type space_pos
          (done ++ [setSplit g (if new_type = BC.WJ ∨ new_type = BC.GL then
            Split.none else Split.before)]) rest
      else if new_type = BC.CL ∨ new_type = BC.CP then
        au_main bcf btf rules noi old_type space_pos
          (done ++ [setSplit g Split.ignore]) rest
      else
        let br := rules old_type new_type
        let done2 :=
          if br = BreakRule.indirect ∨ br = BreakRule.direct then
            match space_pos with
            | some sp => setSplitAt done sp Split.instead
            | none => done
          else done
        let s :=
          if br = BreakRule.direct ∧ space_pos = none then Split.before
          else Split.none
        au_main bcf btf rules noi new_type none
          (done2 ++ [setSplit g s]) rest

/-- The final pass of `annotate_unicode`: force `SPLIT_BEFORE` on
displayables (code point 0), `SPLIT_NONE` on ruby top/alt glyphs and on a
ruby-bottom glyph following a ruby-bottom glyph. -/
def au_final : Glyph → List Glyph → List Glyph
  | _, [] => []
  | old_g, g :: rest =>
      let g1 := if g.character = 0 then setSplit g Split.before else g
      let g2 :=
        if g1.ruby = Ruby.top ∨ g1.ruby = Ruby.alt then
          setSplit g1 Split.none
        else if g1.ruby = Ruby.bottom ∧ old_g.ruby = Ruby.bottom then
          setSplit g1 Split.none
        else g1
      g2 :: au_final g2 rest

/-- `annotate_unicode`: annotate unicode characters with information as to
whether they can be used for linebreaking. -/
def annotate_unicode (bcf btf : Nat → BC) (rules : BC → BC → BreakRule)
    (no_ideographs : Bool) (glyphs : List Glyph) : List Glyph :=
  match glyphs with
  | [] => []
  | g0 :: rest =>
      match au_main bcf btf rules no_ideographs BC.WJ none [g0] rest with
      | [] => []
      | h :: t => au_final (setSplit h Split.none)
          (setSplit h Split.none :: t)

/-- A concrete western-style class table for the counterexample: the
space is `SP`, everything else alphabetic. -/
def c5BreakClasses : Nat → BC := fun c => if c = 0x20 then BC.SP else BC.AL

/-- A concrete tailoring, as `language_tailor(chr(0), "SP")` would install
into the initially-all-`XX` `break_tailor` array: code point 0 is tailored
to class `SP`. -/
def c5Tailor : Nat → BC := fun c => if c = 0 then BC.SP else BC.XX

/-- A concrete pairwise rule table for the counterexample. -/
def c5Rules : BC → BC → BreakRule := fun _ _ => BreakRule.direct

/-- C5 (counterexample): a glyph with code point 0 whose effective break
class (after tailoring) is `SP` still ends with `SPLIT_BEFORE`: the final
pass of `annotate_unicode` forces `SPLIT_BEFORE` on every glyph with
code point 0 regardless of its break class. -/
theorem annotate_unicode_char0_before :
    (annotate_unicode c5BreakClasses c5Tailor c5Rules false
        [{ character := 97 }, { character := 0 }]).map Glyph.split =
      [Split.none, Split.before] ∧
    (annotate_unicode c5BreakClasses c5Tailor c5Rules false
        [{ character := 97 }, { character := 0 }]).map Glyph.character =
      [97, 0] ∧
    effective_class c5BreakClasses c5Tailor false 0 = BC.SP ∧
    Split.before ≠ Split.none ∧ Split.before ≠ Split.instead := by
  refine ⟨?_, ?_, rfl, by decide, by decide⟩ <;> decide

/-- The frame property of C5 for one glyph: an effective class of space or
combining mark (for a real character, code point ≠ 0) allows only
`SPLIT_NONE` or `SPLIT_INSTEAD`. -/
def deferProp (bcf btf : Nat → BC) (noi : Bool) (g : Glyph) : Prop :=
  (effective_class bcf btf noi g.character = BC.SP ∨
   effective_class bcf btf noi g.character = BC.CM) →
  g.character ≠ 0 → (g.split = Split.none ∨ g.split = Split.instead)

lemma setSplit_character (g : Glyph) (s : Split) :
    (setSplit g s).character = g.character := rfl

lemma setSplit_split (g : Glyph) (s : Split) : (setSplit g s).split = s :=
  rfl

lemma setSplitAt_cases (l : List Glyph) (i : Nat) (s : Split) (j : Nat)
    (g : Glyph) (h : (setSplitAt l i s)[j]? = some g) :
    l[j]? = some g ∨ g.split = s := by
  unfold setSplitAt at h
  cases hl : l[i]? with
  | none => rw [hl] at h; exact Or.inl h
  | some g0 =>
      rw [hl] at h
      by_cases hij : i = j
      · subst hij
        have hlen : i < l.length := by
          by_contra hcon
          rw [List.getElem?_eq_none (Nat.le_of_not_lt hcon)] at hl
          exact Option.noConfusion hl
        rw [List.getElem?_set_self hlen] at h
        right
        cases h
        rfl
      · rw [List.getElem?_set_ne hij] at h
        exact Or.inl h

lemma append_single_cases (l : List Glyph) (x : Glyph) (j : Nat)
    (g : Glyph) (h : (l ++ [x])[j]? = some g) :
    l[j]? = some g ∨ (j = l.length ∧ g = x) := by
  by_cases hj : j < l.length
  · rw [List.getElem?_append_left hj] at h
    exact Or.inl h
  · rw [List.getElem?_append_right (Nat.le_of_not_lt hj)] at h
    rcases Nat.eq_zero_or_pos (j - l.length) with h0 | h0
    · rw [h0] at h
      simp only [List.getElem?_cons_zero, Option.some.injEq] at h
      exact Or.inr ⟨by omega, h.symm⟩
    · obtain ⟨d, hd⟩ : ∃ d, j - l.length = d + 1 :=
        ⟨j - l.length - 1, by omega⟩
      rw [hd] at h
      simp at h

/-- Extending the processed prefix by a glyph satisfying the frame
property preserves the indexed invariant. -/
lemma deferProp_extend (bcf btf : Nat → BC) (noi : Bool)
    (done : List Glyph) (x : Glyph)
    (hdone : ∀ (i : Nat) (g : Glyph), done[i]? = some g → 1 ≤ i →
      deferProp bcf btf noi g)
    (hx : deferProp bcf btf noi x) :
    ∀ (i : Nat) (g : Glyph), (done ++ [x])[i]? = some g → 1 ≤ i →
      deferProp bcf btf noi g := by
  intro i g h hi
  rcases append_single_cases done x i g h with h | ⟨_, h⟩
  · exact hdone i g h hi
  · rw [h]; exact hx

/-- Demoting a recorded space to `SPLIT_INSTEAD` preserves the indexed
invariant. -/
lemma deferProp_set (bcf btf : Nat → BC) (noi : Bool)
    (done : List Glyph) (sp : Nat)
    (hdone : ∀ (i : Nat) (g : Glyph), done[i]? = some g → 1 ≤ i →
      deferProp bcf btf noi g) :
    ∀ (i : Nat) (g : Glyph),
      (setSplitAt done sp Split.instead)[i]? = some g → 1 ≤ i →
      deferProp bcf btf noi g := by
  intro i g h hi
  rcases setSplitAt_cases done sp Split.instead i g h with h | h
  · exact hdone i g h hi
  · intro _ _
    exact Or.inr h

lemma au_main_prop (bcf btf : Nat → BC) (rules : BC → BC → BreakRule)
    (noi : Bool) (rest : List Glyph) : ∀ (ot : BC) (sp : Option Nat)
    (done : List Glyph),
    (∀ (i : Nat) (g : Glyph), done[i]? = some g → 1 ≤ i →
      deferProp bcf btf noi g) →
    ∀ (i : Nat) (g : Glyph),
      (au_main bcf btf rules noi ot sp done rest)[i]? = some g → 1 ≤ i →
      deferProp bcf btf noi g := by
  induction rest with
  | nil =>
      intro ot sp done hdone i g h hi
      exact hdone i g h hi
  | cons g0 rest ih =>
      intro ot sp done hdone
      rw [show au_main bcf btf rules noi ot sp done (g0 :: rest) =
        (let new_type := effective_class bcf btf noi g0.character
         if new_type = BC.SP then
           au_main bcf btf rules noi ot (some done.length)
             (done ++ [setSplit g0 Split.none]) rest
         else if new_type = BC.CM then
           au_main bcf btf rules noi ot sp
             (done ++ [setSplit g0 Split.none]) rest
         else if new_type = BC.CB then
           au_main bcf btf rules noi ot sp
             (done ++ [setSplit g0 (if ot = BC.WJ ∨ ot = BC.GL then
               Split.none else Split.before)]) rest
         else if ot = BC.CB then
           au_main bcf btf rules noi ot sp
             (done ++ [setSplit g0 (if new_type = BC.WJ ∨ new_type = BC.GL
               then Split.none else Split.before)]) rest
         else if new_type = BC.CL ∨ new_type = BC.CP then
           au_main bcf btf rules noi ot sp
             (done ++ [setSplit g0 Split.ignore]) rest
         else
           let br := rules ot new_type
           let done2 :=
             if br = BreakRule.indirect ∨ br = BreakRule.direct then
               match sp with
               | some sp0 => setSplitAt done sp0 Split.instead
               | none => done
             else done
           let s :=
             if br = BreakRule.direct ∧ sp = none then Split.before
             else Split.none
           au_main bcf btf rules noi new_type none
             (done2 ++ [setSplit g0 s]) rest) from rfl]
      simp only []
      by_cases h1 : effective_class bcf btf noi g0.character = BC.SP
      · rw [if_pos h1]
        refine ih _ _ _ (deferProp_extend _ _ _ _ _ hdone ?_)
        intro _ _
        exact Or.inl rfl
      rw [if_neg h1]
      by_cases h2 : effective_class bcf btf noi g0.character = BC.CM
      · rw [if_pos h2]
        refine ih _ _ _ (deferProp_extend _ _ _ _ _ hdone ?_)
        intro _ _
        exact Or.inl rfl
      rw [if_neg h2]
      by_cases h3 : effective_class bcf btf noi g0.character = BC.CB
      · rw [if_pos h3]
        refine ih _ _ _ (deferProp_extend _ _ _ _ _ hdone ?_)
        intro hcls _
        rw [setSplit_character] at hcls
        rcases hcls with hcls | hcls <;> rw [h3] at hcls <;> simp at hcls
      rw [if_neg h3]
      by_cases h4 : ot = BC.CB
      · rw [if_pos h4]
        refine ih _ _ _ (deferProp_extend _ _ _ _ _ hdone ?_)
        intro hcls _
        rw [setSplit_character] at hcls
        rcases hcls with hcls | hcls
        · exact absurd hcls h1
        · exact absurd hcls h2
      rw [if_neg h4]
      by_cases h5 : effective_class bcf btf noi g0.character = BC.CL ∨
          effective_class bcf btf noi g0.character = BC.CP
      · rw [if_pos h5]
        refine ih _ _ _ (deferProp_extend _ _ _ _ _ hdone ?_)
        intro hcls _
        rcases hcls with hcls | hcls
        · exact absurd hcls h1
        · exact absurd hcls h2
      rw [if_neg h5]
      have hdone2 : ∀ (i : Nat) (g : Glyph),
          (if rules ot (effective_class bcf btf noi g0.character) =
                BreakRule.indirect ∨
              rules ot (effective_class bcf btf noi g0.character) =
                BreakRule.direct then
            match sp with
            | some sp0 => setSplitAt done sp0 Split.instead
            | none => done
          else done)[i]? = some g → 1 ≤ i → deferProp bcf btf noi g := by
        split
        · match sp with
          | some sp0 => exact deferProp_set _ _ _ done sp0 hdone
          | none => exact hdone
        · exact hdone
      refine ih _ _ _ (deferProp_extend _ _ _ _ _ hdone2 ?_)
      intro hcls _
      rcases hcls with hcls | hcls
      · exact absurd hcls h1
      · exact absurd hcls h2

lemma au_final_prop (bcf btf : Nat → BC) (noi : Bool) :
    ∀ (old_g : Glyph) (gs : List Glyph),
    (∀ g ∈ gs, deferProp bcf btf noi g) →
    ∀ g' ∈ au_final old_g gs, deferProp bcf btf noi g' := by
  intro old_g gs
  induction gs generalizing old_g with
  | nil =>
      intro _ g' hg'
      simp [au_final] at hg'
  | cons g rest ih =>
      intro h g' hg'
      rw [au_final] at hg'
      rcases List.mem_cons.mp hg' with hg' | hg'
      · subst hg'
        by_cases hruby : (if g.character = 0 then setSplit g Split.before
            else g).ruby = Ruby.top ∨
            (if g.character = 0 then setSplit g Split.before
            else g).ruby = Ruby.alt
        · rw [if_pos hruby]
          intro _ _
          exact Or.inl rfl
        rw [if_neg hruby]
        by_cases hrb : (if g.character = 0 then setSplit g Split.before
            else g).ruby = Ruby.bottom ∧ old_g.ruby = Ruby.bottom
        · rw [if_pos hrb]
          intro _ _
          exact Or.inl rfl
        rw [if_neg hrb]
        by_cases hch : g.character = 0
        · rw [if_pos hch]
          intro _ hch2
          rw [show (setSplit g Split.before).character = g.character
            from rfl, hch] at hch2
          exact absurd rfl hch2
        · rw [if_neg hch]
          exact h g (List.mem_cons_self g rest)
      · exact ih _ (fun g hgm => h g (List.mem_cons_of_mem _ hgm)) g' hg'

/-- C5 (amended): for every glyph list, class tables, tailoring, pairwise
rules and `no_ideographs` flag, after `annotate_unicode` runs, no glyph
with code point ≠ 0 whose effective break class (after tailoring) is space
(`SP`) or combining mark (`CM`) has split `SPLIT_BEFORE`: its split is
`SPLIT_NONE` or (for a space promoted by a later indirect/direct break)
`SPLIT_INSTEAD`.  Glyphs with code point 0 (displayables) are excluded:
the final pass forces `SPLIT_BEFORE` on them regardless of class. -/
theorem annotate_unicode_sp_cm_defer (bcf btf : Nat → BC)
    (rules : BC → BC → BreakRule) (noi : Bool) (gs : List Glyph) :
    ∀ g ∈ annotate_unicode bcf btf rules noi gs,
      (effective_class bcf btf noi g.character = BC.SP ∨
       effective_class bcf btf noi g.character = BC.CM) →
      g.character ≠ 0 →
      (g.split = Split.none ∨ g.split = Split.instead) := by
  intro g hg
  cases gs with
  | nil => simp [annotate_unicode] at hg
  | cons g0 rest =>
      rw [annotate_unicode] at hg
      cases hmain : au_main bcf btf rules noi BC.WJ none [g0] rest with
      | nil => rw [hmain] at hg; simp at hg
      | cons h t =>
          rw [hmain] at hg
          refine au_final_prop bcf btf noi (setSplit h Split.none)
            (setSplit h Split.none :: t) ?_ g hg
          intro g' hg'
          rcases List.mem_cons.mp hg' with hg' | hg'
          · subst hg'
            intro _ _
            exact Or.inl rfl
          · rcases List.mem_iff_getElem?.mp hg' with ⟨i, hi⟩
            have hht : (h :: t)[i + 1]? = some g' := by simpa using hi
            rw [← hmain] at hht
            exact au_main_prop bcf btf rules noi rest BC.WJ none [g0]
              (by intro i g hig hle
                  match i, hig with
                  | 0, hig => omega
                  | i + 1, hig => simp at hig)
              (i + 1) g' hht (Nat.le_add_left 1 i)

theorem annotate_unicode_sp_cm_defer_witness :
    ({ character := 32 } : Glyph) ∈ annotate_unicode c5BreakClasses
        c5Tailor c5Rules false
        [{ character := 97 }, { character := 32 }] ∧
      (({ character := 32 } : Glyph).split = Split.none ∨
        ({ character := 32 } : Glyph).split = Split.instead) :=
  ⟨by decide, annotate_unicode_sp_cm_defer c5BreakClasses c5Tailor c5Rules
    false [{ character := 97 }, { character := 32 }] { character := 32 }
    (by decide) (by decide) (by decide)⟩

/-! ## `linebreak_greedy` -/

/-- The scan state of `linebreak_greedy`: the current width budget, the
cursor `x`, the cursor-after-split `splitx`, the deferred `ignored`
advance, the pending split candidate (`split_g`, stored as the index of
the glyph in the processed prefix) and the glyphs processed so far. -/
structure GreedyS where
  width : ℚ
  x : ℚ
  splitx : ℚ
  ignored : ℚ
  split_g : Option Nat
  done : List Glyph
  deriving Repr

/-- The overflow check at the top of the loop body: if the cursor exceeds
the current width and a candidate is pending, commit to breaking there —
reset the cursor to `splitx`, clear the pending candidate (keeping its
split) and switch the budget to the rest-of-line width. -/
def greedy_commit (rest_width : ℚ) (st : GreedyS) : GreedyS :=
  if st.width < st.x ∧ st.split_g.isSome then
    { st with x := st.splitx, split_g := none, width := rest_width }
  else st

/-- The advance accumulation and candidate registration for one
non-ruby, non-ignore glyph, after the overflow check.  A `SPLIT_INSTEAD`
or `SPLIT_BEFORE` glyph demotes the previously pending candidate to
`SPLIT_NONE` and becomes the pending candidate itself. -/
def greedy_add (st1 : GreedyS) (g : Glyph) : GreedyS :=
  match g.split with
  | Split.instead =>
      { width := st1.width, x := st1.x + g.advance + st1.ignored,
        splitx := 0, ignored := 0, split_g := some st1.done.length,
        done := (match st1.split_g with
                 | some j => setSplitAt st1.done j Split.none
                 | none => st1.done) ++ [g] }
  | Split.before =>
      { width := st1.width, x := st1.x + g.advance + st1.ignored,
        splitx := g.advance, ignored := 0,
        split_g := some st1.done.length,
        done := (match st1.split_g with
                 | some j => setSplitAt st1.done j Split.none
                 | none => st1.done) ++ [g] }
  | _ =>
      { width := st1.width, x := st1.x + g.advance + st1.ignored,
        splitx := st1.splitx + g.advance + st1.ignored, ignored := 0,
        split_g := st1.split_g, done := st1.done ++ [g] }

/-- One iteration of the `linebreak_greedy` loop: ruby top/alt glyphs are
skipped, `SPLIT_IGNORE` glyphs defer their advance, all others run the
overflow check followed by accumulation/registration. -/
def greedy_step (rest_width : ℚ) (st : GreedyS) (g : Glyph) : GreedyS :=
  if g.ruby = Ruby.top ∨ g.ruby = Ruby.alt then
    { st with done := st.done ++ [g] }
  else if g.split = Split.ignore then
    { st with ignored := st.ignored + g.advance, done := st.done ++ [g] }
  else
    greedy_add (greedy_commit rest_width st) g

/-- The initial scan state of `linebreak_greedy`. -/
def greedy_init (first_width : Int) : GreedyS :=
  { width := (first_width : ℚ), x := 0, splitx := 0, ignored := 0,
    split_g := none, done := [] }

/-- The fixup after the scan: if the final cursor still exceeds the
budget, the pending candidate is kept (the break is needed); otherwise it
is demoted to `SPLIT_NONE`. -/
def greedy_finish (st : GreedyS) : List Glyph :=
  match (if st.width < st.x then none else st.split_g) with
  | some j => setSplitAt st.done j Split.none
  | none => st.done

/-- `linebreak_greedy`: decide where to split a list of classified glyphs,
given a first-line width budget and a rest-of-line width budget.  The
result is the same list of glyphs, but with some split fields set back to
`SPLIT_NONE` where the split was not committed. -/
def linebreak_greedy (glyphs : List Glyph) (first_width rest_width : Int) :
    List Glyph :=
  greedy_finish (glyphs.foldl (greedy_step (rest_width : ℚ))
    (greedy_init first_width))

/-- The frame relation of C10 between an input prefix and the processed
glyphs: same length, and each processed glyph differs from the input
glyph at the same position only in its split field, which is either the
input split or demoted to `SPLIT_NONE`. -/
def GreedyFrame (pre done : List Glyph) : Prop :=
  done.length = pre.length ∧
  ∀ (i : Nat) (g' : Glyph), done[i]? = some g' →
    ∃ g : Glyph, pre[i]? = some g ∧ g' = setSplit g g'.split ∧
      (g'.split = g.split ∨ g'.split = Split.none)

lemma setSplitAt_length (l : List Glyph) (j : Nat) (s : Split) :
    (setSplitAt l j s).length = l.length := by
  unfold setSplitAt
  cases l[j]? <;> simp

lemma GreedyFrame_set (pre done : List Glyph) (j : Nat)
    (h : GreedyFrame pre done) :
    GreedyFrame pre (setSplitAt done j Split.none) := by
  refine ⟨by rw [setSplitAt_length]; exact h.1, ?_⟩
  intro i g' hg'
  unfold setSplitAt at hg'
  cases hj : done[j]? with
  | none => rw [hj] at hg'; exact h.2 i g' hg'
  | some gj =>
      rw [hj] at hg'
      by_cases hij : j = i
      · subst hij
        have hlen : j < done.length := by
          by_contra hcon
          rw [List.getElem?_eq_none (Nat.le_of_not_lt hcon)] at hj
          exact Option.noConfusion hj
        rw [List.getElem?_set_self hlen] at hg'
        cases hg'
        rcases h.2 j gj hj with ⟨g, hg, hset, _⟩
        refine ⟨g, hg, ?_, Or.inr rfl⟩
        rw [hset]
        rfl
      · rw [List.getElem?_set_ne hij] at hg'
        exact h.2 i g' hg'

lemma GreedyFrame_append (pre done : List Glyph) (g : Glyph)
    (h : GreedyFrame pre done) :
    GreedyFrame (pre ++ [g]) (done ++ [g]) := by
  refine ⟨by simp [h.1], ?_⟩
  intro i g' hg'
  rcases append_single_cases done g i g' hg' with hg' | ⟨hi, rfl⟩
  · rcases h.2 i g' hg' with ⟨g0, hg0, hset, hsplit⟩
    have hi : i < pre.length := by
      by_contra hcon
      rw [List.getElem?_eq_none (Nat.le_of_not_lt hcon)] at hg0
      exact Option.noConfusion hg0
    exact ⟨g0, by rw [List.getElem?_append_left hi]; exact hg0, hset,
      hsplit⟩
  · refine ⟨g', ?_, rfl, Or.inl rfl⟩
    rw [hi, h.1]
    rw [List.getElem?_append_right (Nat.le_refl _)]
    simp

lemma greedy_commit_done (rw' : ℚ) (st : GreedyS) :
    (greedy_commit rw' st).done = st.done := by
  unfold greedy_commit
  split <;> rfl

lemma greedy_add_done_shape (st1 : GreedyS) (g : Glyph) :
    ∃ d0 : List Glyph, (greedy_add st1 g).done = d0 ++ [g] ∧
      (d0 = st1.done ∨ ∃ j, d0 = setSplitAt st1.done j Split.none) := by
  cases hs : g.split
  case instead =>
      cases hsg : st1.split_g with
      | none =>
          refine ⟨st1.done, ?_, Or.inl rfl⟩
          unfold greedy_add
          rw [hs, hsg]
      | some j =>
          refine ⟨setSplitAt st1.done j Split.none, ?_, Or.inr ⟨j, rfl⟩⟩
          unfold greedy_add
          rw [hs, hsg]
  case before =>
      cases hsg : st1.split_g with
      | none =>
          refine ⟨st1.done, ?_, Or.inl rfl⟩
          unfold greedy_add
          rw [hs, hsg]
      | some j =>
          refine ⟨setSplitAt st1.done j Split.none, ?_, Or.inr ⟨j, rfl⟩⟩
          unfold greedy_add
          rw [hs, hsg]
  case none =>
      refine ⟨st1.done, ?_, Or.inl rfl⟩
      unfold greedy_add
      rw [hs]
  case ignore =>
      refine ⟨st1.done, ?_, Or.inl rfl⟩
      unfold greedy_add
      rw [hs]

lemma greedy_step_frame (rw' : ℚ) (pre : List Glyph) (st : GreedyS)
    (g : Glyph) (h : GreedyFrame pre st.done) :
    GreedyFrame (pre ++ [g]) ((greedy_step rw' st g).done) := by
  unfold greedy_step
  by_cases h1 : g.ruby = Ruby.top ∨ g.ruby = Ruby.alt
  · rw [if_pos h1]
    exact GreedyFrame_append pre st.done g h
  rw [if_neg h1]
  by_cases h2 : g.split = Split.ignore
  · rw [if_pos h2]
    exact GreedyFrame_append pre st.done g h
  rw [if_neg h2]
  rcases greedy_add_done_shape (greedy_commit rw' st) g with
    ⟨d0, hd0, hcase⟩
  rw [hd0]
  rcases hcase with hcase | ⟨j, hcase⟩
  · rw [hcase, greedy_commit_done]
    exact GreedyFrame_append pre st.done g h
  · rw [hcase, greedy_commit_done]
    exact GreedyFrame_append pre _ g (GreedyFrame_set pre st.done j h)

lemma greedy_fold_frame (rw' : ℚ) (rest : List Glyph) :
    ∀ (pre : List Glyph) (st : GreedyS), GreedyFrame pre st.done →
    GreedyFrame (pre ++ rest) ((rest.foldl (greedy_step rw') st).done) := by
  induction rest with
  | nil =>
      intro pre st h
      simpa using h
  | cons g rest ih =>
      intro pre st h
      rw [List.foldl_cons]
      have h3 := ih (pre ++ [g]) (greedy_step rw' st g)
        (greedy_step_frame rw' pre st g h)
      simpa using h3

/-- C10: for every glyph list and every pair of width budgets,
`linebreak_greedy` preserves the list's length and element order, modifies
no glyph field other than split, and leaves each glyph's split either
equal to its value before the call or demoted to `SPLIT_NONE` — it never
promotes a glyph to a break opportunity it did not already carry. -/
theorem linebreak_greedy_frame (gs : List Glyph) (fw rw : Int) :
    (linebreak_greedy gs fw rw).length = gs.length ∧
    ∀ (i : Nat) (g' : Glyph), (linebreak_greedy gs fw rw)[i]? = some g' →
      ∃ g : Glyph, gs[i]? = some g ∧ g' = setSplit g g'.split ∧
        (g'.split = g.split ∨ g'.split = Split.none) := by
  have h0 : GreedyFrame [] ((greedy_init fw).done) := by
    refine ⟨rfl, ?_⟩
    intro i g' h
    simp [greedy_init] at h
  have hf := greedy_fold_frame (rw : ℚ) gs [] (greedy_init fw) h0
  rw [List.nil_append] at hf
  have hfin : GreedyFrame gs (linebreak_greedy gs fw rw) := by
    unfold linebreak_greedy greedy_finish
    cases hfix : (if (gs.foldl (greedy_step (rw : ℚ))
        (greedy_init fw)).width < (gs.foldl (greedy_step (rw : ℚ))
        (greedy_init fw)).x then none
      else (gs.foldl (greedy_step (rw : ℚ)) (greedy_init fw)).split_g) with
    | none => exact hf
    | some j => exact GreedyFrame_set gs _ j hf
  exact ⟨hfin.1, hfin.2⟩

/-! ### The line-fitting property of `linebreak_greedy` (C1)

The vocabulary: the accumulated advance of a half-open index range (ruby
top/alt glyphs contribute nothing), the split candidates of the classified
input, the line decomposition of the output (lines are delimited by
committed `SPLIT_INSTEAD`/`SPLIT_BEFORE` glyphs), and the width budget in
effect for a line (the first-line width for the line starting at index 0,
unless that line itself starts at a committed `SPLIT_BEFORE`; the
rest-of-line width otherwise). -/

/-- The advance contributed by position `i` of the glyph list: ruby
top/alt glyphs contribute nothing. -/
def contrib (gs : List Glyph) (i : Nat) : ℚ :=
  match gs[i]? with
  | some g => if g.ruby = Ruby.top ∨ g.ruby = Ruby.alt then 0 else g.advance
  | none => 0

/-- The accumulated advance of positions `a ≤ i < b`. -/
def adv_sum (gs : List Glyph) (a b : Nat) : ℚ :=
  ∑ i ∈ Finset.Ico a b, contrib gs i

/-- The split stored at position `i`, if any. -/
def osplit (l : List Glyph) (i : Nat) : Option Split :=
  l[i]?.map Glyph.split

/-- Position `i` holds a glyph that the scan processes through the
overflow check (neither ruby top/alt nor, under the no-ignore hypothesis,
skipped). -/
def contribPos (gs : List Glyph) (i : Nat) : Prop :=
  ∃ g, gs[i]? = some g ∧ ¬ rubySkip g

/-- Position `i` of the classified input is a split candidate: a non-ruby
glyph carrying `SPLIT_INSTEAD` or `SPLIT_BEFORE`. -/
def isCand (gs : List Glyph) (i : Nat) : Prop :=
  ∃ g, gs[i]? = some g ∧ ¬ rubySkip g ∧
    (g.split = Split.instead ∨ g.split = Split.before)

/-- A candidate of the line starting at `a` that can actually shorten that
line: a `SPLIT_BEFORE` candidate at the line start itself cannot (breaking
there reproduces the same line start). -/
def validCand (gs : List Glyph) (a i : Nat) : Prop :=
  isCand gs i ∧ (i ≠ a ∨ osplit gs i = some Split.instead)

/-- Where the next line starts if the scan commits to the candidate at
`j`: after `j` for `SPLIT_INSTEAD` (the glyph is consumed into the break),
at `j` for `SPLIT_BEFORE` (the glyph starts the new line). -/
def nextStart (gs : List Glyph) (j : Nat) : Nat :=
  if osplit gs j = some Split.instead then j + 1 else j

/-- `[a, e]` is a line of the output `out`: it starts at 0, after a
`SPLIT_INSTEAD` glyph, or at a `SPLIT_BEFORE` glyph; it contains no break
inside; and it ends at a `SPLIT_INSTEAD` glyph, at the end of the list, or
just before a `SPLIT_BEFORE` glyph. -/
def IsLine (out : List Glyph) (a e : Nat) : Prop :=
  a ≤ e ∧ e < out.length ∧
  (a = 0 ∨ osplit out (a - 1) = some Split.instead ∨
    osplit out a = some Split.before) ∧
  (∀ i, a < i → i ≤ e → osplit out i ≠ some Split.before) ∧
  (∀ i, a ≤ i → i < e → osplit out i ≠ some Split.instead) ∧
  (osplit out e = some Split.instead ∨ e + 1 = out.length ∨
    osplit out (e + 1) = some Split.before)

/-- The width budget in effect for the line starting at `a`: the
first-line width for the line starting at index 0 (unless index 0 carries
a committed `SPLIT_BEFORE`, which makes the glyphs from 0 on a rest
line), the rest-of-line width otherwise. -/
def lineBudget (fw rw : Int) (l : List Glyph) (a : Nat) : ℚ :=
  if a = 0 ∧ osplit l 0 ≠ some Split.before then (fw : ℚ) else (rw : ℚ)

/-- The shape of a committed line `[A, E]` in the processed prefix, with
`pend` the pending (not yet committed) candidate: the boundary evidence at
`A` and after `E` must not rest on the pending candidate. -/
def LineShape (l : List Glyph) (pend : Option Nat) (A E : Nat) : Prop :=
  (A = 0 ∨ osplit l (A - 1) = some Split.instead ∨
    (osplit l A = some Split.before ∧ pend ≠ some A)) ∧
  (∀ i, A < i → i ≤ E → osplit l i ≠ some Split.before) ∧
  (∀ i, A ≤ i → i < E → osplit l i ≠ some Split.instead) ∧
  (osplit l E = some Split.instead ∨
    (osplit l (E + 1) = some Split.before ∧ pend ≠ some (E + 1)))

lemma contrib_nonneg (gs : List Glyph) (hadv : ∀ g ∈ gs, 0 ≤ g.advance)
    (i : Nat) : 0 ≤ contrib gs i := by
  cases h : gs[i]? with
  | none =>
      have he : contrib gs i = 0 := by unfold contrib; rw [h]
      rw [he]
  | some g =>
      have he : contrib gs i =
          if g.ruby = Ruby.top ∨ g.ruby = Ruby.alt then 0 else g.advance := by
        unfold contrib; rw [h]
      rw [he]
      split
      · exact le_refl (0 : ℚ)
      · exact hadv g (List.getElem?_mem h)

lemma adv_sum_refl (gs : List Glyph) (a : Nat) : adv_sum gs a a = 0 := by
  simp [adv_sum]

lemma adv_sum_succ (gs : List Glyph) (a b : Nat) (h : a ≤ b) :
    adv_sum gs a (b + 1) = adv_sum gs a b + contrib gs b := by
  unfold adv_sum
  rw [Finset.sum_Ico_succ_top h]

lemma adv_sum_mono (gs : List Glyph) (hadv : ∀ g ∈ gs, 0 ≤ g.advance)
    (a b c : Nat) (h1 : a ≤ b) (h2 : b ≤ c) :
    adv_sum gs a b ≤ adv_sum gs a c := by
  unfold adv_sum
  rw [← Finset.sum_Ico_consecutive _ h1 h2]
  have : 0 ≤ ∑ i ∈ Finset.Ico b c, contrib gs i :=
    Finset.sum_nonneg fun i _ => contrib_nonneg gs hadv i
  linarith

lemma contrib_eq_adv (gs : List Glyph) (i : Nat) (g : Glyph)
    (hi : gs[i]? = some g) (hns : ¬ rubySkip g) :
    contrib gs i = g.advance := by
  unfold contrib
  rw [hi]
  exact if_neg hns

lemma contrib_eq_zero (gs : List Glyph) (i : Nat) (g : Glyph)
    (hi : gs[i]? = some g) (hs : rubySkip g) : contrib gs i = 0 := by
  unfold contrib
  rw [hi]
  exact if_pos hs

lemma osplit_append_lt (l : List Glyph) (x : Glyph) (i : Nat)
    (h : i < l.length) : osplit (l ++ [x]) i = osplit l i := by
  unfold osplit
  rw [List.getElem?_append_left h]

lemma osplit_append_len (l : List Glyph) (x : Glyph) :
    osplit (l ++ [x]) l.length = some x.split := by
  unfold osplit
  rw [List.getElem?_append_right (Nat.le_refl _)]
  simp

lemma osplit_setSplitAt_ne (l : List Glyph) (j : Nat) (s : Split) (i : Nat)
    (h : j ≠ i) : osplit (setSplitAt l j s) i = osplit l i := by
  unfold setSplitAt
  cases hj : l[j]? with
  | none => rfl
  | some g => unfold osplit; rw [List.getElem?_set_ne h]

lemma osplit_setSplitAt_self (l : List Glyph) (j : Nat) (s : Split)
    (h : j < l.length) : osplit (setSplitAt l j s) j = some s := by
  unfold setSplitAt
  cases hj : l[j]? with
  | none =>
      rw [List.getElem?_eq_none_iff] at hj
      omega
  | some g =>
      unfold osplit
      rw [List.getElem?_set_self (by simpa using h)]
      rfl

lemma osplit_none_of_le (l : List Glyph) (i : Nat) (h : l.length ≤ i) :
    osplit l i = none := by
  unfold osplit
  rw [List.getElem?_eq_none h]
  rfl

lemma isCand_contribPos (gs : List Glyph) (i : Nat) (h : isCand gs i) :
    contribPos gs i := by
  rcases h with ⟨g, hg, hns, _⟩
  exact ⟨g, hg, hns⟩

lemma isCand_osplit (gs : List Glyph) (i : Nat) (h : isCand gs i) :
    osplit gs i = some Split.instead ∨ osplit gs i = some Split.before := by
  rcases h with ⟨g, hg, _, hsp | hsp⟩
  · left; unfold osplit; rw [hg]; simp [hsp]
  · right; unfold osplit; rw [hg]; simp [hsp]

lemma osplit_lt_length (l : List Glyph) (i : Nat) (s : Split)
    (h : osplit l i = some s) : i < l.length := by
  by_contra hcon
  rw [osplit_none_of_le l i (Nat.le_of_not_lt hcon)] at h
  exact Option.noConfusion h

/-- The master invariant of the `linebreak_greedy` scan after `p` glyphs
have been processed.  `a` is the index at which the current (still open)
line starts and `fl` records whether the current line is still the first
line (its budget is `first_width`).  The fields record the cursor
identities, the boundary evidence for the current line start, the absence
of committed breaks inside the open line, the state of the pending
candidate, the fact that every overflow check on the open line passed
whenever a valid candidate preceded it, and the fitting property of every
already-completed line. -/
structure GInv (gs : List Glyph) (fw rw : Int) (p a : Nat) (fl : Bool)
    (st : GreedyS) : Prop where
  hlen : st.done.length = p
  hple : p ≤ gs.length
  hap : a ≤ p
  hign : st.ignored = 0
  hx : st.x = adv_sum gs a p
  hwidth : st.width = if fl then (fw : ℚ) else (rw : ℚ)
  hfl_a : fl = true → a = 0
  hfl_zero : fl = true → osplit st.done 0 = some Split.before →
    st.split_g = some 0
  hnofl0 : fl = false → a = 0 →
    osplit st.done 0 = some Split.before ∧ st.split_g ≠ some 0
  ha_start : a = 0 ∨ osplit st.done (a - 1) = some Split.instead ∨
    (osplit st.done a = some Split.before ∧ st.split_g ≠ some a)
  hinterior : ∀ i, a ≤ i → i < p → st.split_g ≠ some i →
    osplit st.done i ≠ some Split.instead ∧
    (i ≠ a → osplit st.done i ≠ some Split.before)
  hpend : ∀ j, st.split_g = some j →
    a ≤ j ∧ j < p ∧ isCand gs j ∧ osplit st.done j = osplit gs j ∧
    st.splitx = adv_sum gs (nextStart gs j) p ∧
    ∀ i, j < i → i < p → ¬ isCand gs i
  hnone : st.split_g = none → ∀ i, a ≤ i → i < p → ¬ validCand gs a i
  hK : ∀ q, a ≤ q → q < p → contribPos gs q →
    (∃ i, a ≤ i ∧ i < q ∧ validCand gs a i) →
    adv_sum gs a q ≤ st.width
  hpast : ∀ A E, A ≤ E → E + 1 ≤ a →
    LineShape st.done st.split_g A E →
    (∃ c, A ≤ c ∧ c ≤ E ∧ validCand gs A c ∧
      adv_sum gs A c ≤ lineBudget fw rw st.done A) →
    adv_sum gs A E ≤ lineBudget fw rw st.done A

lemma LineShape_append (done : List Glyph) (g : Glyph) (pend : Option Nat)
    (A E : Nat) (hAE : A ≤ E) (hE : E + 1 ≤ done.length)
    (hside : g.split = Split.none ∨ pend = some done.length)
    (h : LineShape (done ++ [g]) pend A E) : LineShape done pend A E := by
  obtain ⟨h1, h2, h3, h4⟩ := h
  refine ⟨?_, ?_, ?_, ?_⟩
  · rcases h1 with h1 | h1 | ⟨h1, h1p⟩
    · exact Or.inl h1
    · refine Or.inr (Or.inl ?_)
      rw [← osplit_append_lt done g (A - 1) (by omega)]
      exact h1
    · refine Or.inr (Or.inr ⟨?_, h1p⟩)
      rw [← osplit_append_lt done g A (by omega)]
      exact h1
  · intro i hi1 hi2
    rw [← osplit_append_lt done g i (by omega)]
    exact h2 i hi1 hi2
  · intro i hi1 hi2
    rw [← osplit_append_lt done g i (by omega)]
    exact h3 i hi1 hi2
  · rcases h4 with h4 | ⟨h4, h4p⟩
    · refine Or.inl ?_
      rw [← osplit_append_lt done g E (by omega)]
      exact h4
    · by_cases hcase : E + 1 < done.length
      · refine Or.inr ⟨?_, h4p⟩
        rw [← osplit_append_lt done g (E + 1) hcase]
        exact h4
      · have hlen : E + 1 = done.length := by omega
        rw [hlen, osplit_append_len] at h4
        rcases hside with hside | hside
        · rw [hside] at h4
          exact absurd (Option.some.inj h4) (by simp)
        · rw [← hlen] at hside
          exact absurd hside h4p
  -- matched clause by clause against the evidence in the longer list

lemma lineBudget_append (fw rw : Int) (done : List Glyph) (g : Glyph)
    (A : Nat) (h0 : 0 < done.length) :
    lineBudget fw rw (done ++ [g]) A = lineBudget fw rw done A := by
  unfold lineBudget
  rw [osplit_append_lt done g 0 h0]

lemma lineBudget_set_ne (fw rw : Int) (done : List Glyph) (j : Nat)
    (s : Split) (A : Nat) (hj : j ≠ 0) :
    lineBudget fw rw (setSplitAt done j s) A = lineBudget fw rw done A := by
  unfold lineBudget
  rw [osplit_setSplitAt_ne done j s 0 hj]

lemma nextStart_le (gs : List Glyph) (j p : Nat) (h : j < p) :
    nextStart gs j ≤ p := by
  unfold nextStart
  split <;> omega

lemma ginv_step_skip (gs : List Glyph) (fw rw : Int) (p a : Nat)
    (fl : Bool) (st : GreedyS) (g : Glyph)
    (hG : GInv gs fw rw p a fl st) (hgp : gs[p]? = some g)
    (hskip : rubySkip g)
    (hruby : ∀ g' ∈ gs, rubySkip g' → g'.split = Split.none) :
    GInv gs fw rw (p + 1) a fl { st with done := st.done ++ [g] } := by
  have hgmem : g ∈ gs := List.getElem?_mem hgp
  have hgsplit : g.split = Split.none := hruby g hgmem hskip
  have hplt : p < gs.length := by
    by_contra hcon
    rw [List.getElem?_eq_none (Nat.le_of_not_lt hcon)] at hgp
    exact Option.noConfusion hgp
  have hc0 : contrib gs p = 0 := contrib_eq_zero gs p g hgp hskip
  have hlow : ∀ i, i < p → osplit (st.done ++ [g]) i = osplit st.done i :=
    fun i hi => osplit_append_lt st.done g i (by rw [hG.hlen]; exact hi)
  have hat : osplit (st.done ++ [g]) p = some g.split := by
    rw [← hG.hlen]
    exact osplit_append_len st.done g
  refine ⟨by simp [hG.hlen], hplt, Nat.le_succ_of_le hG.hap, hG.hign, ?_,
    hG.hwidth, hG.hfl_a, ?_, ?_, ?_, ?_, ?_, ?_, ?_, ?_⟩
  · show st.x = adv_sum gs a (p + 1)
    rw [adv_sum_succ gs a p hG.hap, hc0, add_zero]
    exact hG.hx
  · -- hfl_zero
    intro hfl h0
    rcases Nat.eq_zero_or_pos p with hp0 | hp0
    · have hd : st.done = [] := List.length_eq_zero.mp (by rw [hG.hlen, hp0])
      rw [hd] at h0
      have : osplit ([] ++ [g]) 0 = some g.split := by
        simp [osplit]
      rw [this, hgsplit] at h0
      exact absurd (Option.some.inj h0) (by simp)
    · rw [hlow 0 hp0] at h0
      exact hG.hfl_zero hfl h0
  · -- hnofl0
    intro hfl ha0
    obtain ⟨h0, hp⟩ := hG.hnofl0 hfl ha0
    have hp0 : 0 < p := by
      rw [← hG.hlen]
      exact osplit_lt_length st.done 0 Split.before h0
    exact ⟨by rw [hlow 0 hp0]; exact h0, hp⟩
  · -- ha_start
    rcases hG.ha_start with h | h | ⟨h, hp⟩
    · exact Or.inl h
    · refine Or.inr (Or.inl ?_)
      have : a - 1 < p := by
        rw [← hG.hlen]
        exact osplit_lt_length st.done (a - 1) Split.instead h
      rw [hlow (a - 1) this]
      exact h
    · refine Or.inr (Or.inr ⟨?_, hp⟩)
      have : a < p := by
        rw [← hG.hlen]
        exact osplit_lt_length st.done a Split.before h
      rw [hlow a this]
      exact h
  · -- hinterior
    intro i hi1 hi2 hi3
    rcases Nat.lt_succ_iff_lt_or_eq.mp hi2 with hi2 | hi2
    · rw [hlow i hi2]
      exact hG.hinterior i hi1 hi2 hi3
    · subst hi2
      rw [hat, hgsplit]
      exact ⟨by simp, fun _ => by simp⟩
  · -- hpend
    intro j hj
    obtain ⟨h1, h2, h3, h4, h5, h6⟩ := hG.hpend j hj
    refine ⟨h1, Nat.lt_succ_of_lt h2, h3, by rw [hlow j h2]; exact h4, ?_, ?_⟩
    · rw [adv_sum_succ gs (nextStart gs j) p (nextStart_le gs j p h2), hc0,
        add_zero]
      exact h5
    · intro i hi1 hi2
      rcases Nat.lt_succ_iff_lt_or_eq.mp hi2 with hi2 | hi2
      · exact h6 i hi1 hi2
      · subst hi2
        intro hcand
        rcases hcand with ⟨g', hg', hns, _⟩
        rw [hgp] at hg'
        cases hg'
        exact hns hskip
  · -- hnone
    intro hnn i hi1 hi2
    rcases Nat.lt_succ_iff_lt_or_eq.mp hi2 with hi2 | hi2
    · exact hG.hnone hnn i hi1 hi2
    · subst hi2
      intro hcand
      rcases hcand.1 with ⟨g', hg', hns, _⟩
      rw [hgp] at hg'
      cases hg'
      exact hns hskip
  · -- hK
    intro q hq1 hq2 hq3 hq4
    rcases Nat.lt_succ_iff_lt_or_eq.mp hq2 with hq2 | hq2
    · exact hG.hK q hq1 hq2 hq3 hq4
    · subst hq2
      rcases hq3 with ⟨g', hg', hns⟩
      rw [hgp] at hg'
      cases hg'
      exact absurd hskip hns
  · -- hpast
    intro A E hAE hEa hshape hprov
    have hap := hG.hap
    have hEp : E + 1 ≤ st.done.length := by
      rw [hG.hlen]; omega
    have h0p : 0 < st.done.length := by
      rw [hG.hlen]; omega
    have hshape' := LineShape_append st.done g st.split_g A E hAE hEp
      (Or.inl hgsplit) hshape
    rw [lineBudget_append fw rw st.done g A h0p] at hprov ⊢
    exact hG.hpast A E hAE hEa hshape' hprov

lemma LineShape_none (l : List Glyph) (pend : Option Nat) (A E : Nat)
    (h : LineShape l pend A E) : LineShape l Option.none A E := by
  obtain ⟨h1, h2, h3, h4⟩ := h
  refine ⟨?_, h2, h3, ?_⟩
  · rcases h1 with h1 | h1 | ⟨h1, _⟩
    · exact Or.inl h1
    · exact Or.inr (Or.inl h1)
    · exact Or.inr (Or.inr ⟨h1, by simp⟩)
  · rcases h4 with h4 | ⟨h4, _⟩
    · exact Or.inl h4
    · exact Or.inr ⟨h4, by simp⟩

lemma LineShape_unset (done : List Glyph) (j0 : Nat) (pend' : Option Nat)
    (A E : Nat) (hAE : A ≤ E) (hj0 : E + 1 ≤ j0)
    (h : LineShape (setSplitAt done j0 Split.none) pend' A E) :
    LineShape done (some j0) A E := by
  obtain ⟨h1, h2, h3, h4⟩ := h
  have huns : ∀ i, i < j0 →
      osplit (setSplitAt done j0 Split.none) i = osplit done i :=
    fun i hi => osplit_setSplitAt_ne done j0 Split.none i (by omega)
  refine ⟨?_, ?_, ?_, ?_⟩
  · rcases h1 with h1 | h1 | ⟨h1, _⟩
    · exact Or.inl h1
    · refine Or.inr (Or.inl ?_)
      rw [← huns (A - 1) (by omega)]
      exact h1
    · refine Or.inr (Or.inr ⟨?_, by intro hcon; cases hcon; omega⟩)
      rw [← huns A (by omega)]
      exact h1
  · intro i hi1 hi2
    rw [← huns i (by omega)]
    exact h2 i hi1 hi2
  · intro i hi1 hi2
    rw [← huns i (by omega)]
    exact h3 i hi1 hi2
  · rcases h4 with h4 | ⟨h4, _⟩
    · refine Or.inl ?_
      rw [← huns E (by omega)]
      exact h4
    · by_cases hcase : E + 1 < j0
      · refine Or.inr ⟨?_, by intro hcon; cases hcon; omega⟩
        rw [← huns (E + 1) hcase]
        exact h4
      · have hEj : E + 1 = j0 := by omega
        rw [hEj] at h4
        by_cases hjlen : j0 < done.length
        · rw [osplit_setSplitAt_self done j0 Split.none hjlen] at h4
          exact absurd (Option.some.inj h4) (by simp)
        · have : setSplitAt done j0 Split.none = done := by
            unfold setSplitAt
            rw [List.getElem?_eq_none (Nat.le_of_not_lt hjlen)]
          rw [this, osplit_none_of_le done j0 (Nat.le_of_not_lt hjlen)] at h4
          exact Option.noConfusion h4

/-- The invariant survives the registration of a `SPLIT_INSTEAD` or
`SPLIT_BEFORE` glyph at position `p`, after a passed (or vacuous) overflow
check: the current line start and first-line flag are unchanged. -/
lemma ginv_step_reg_core (gs : List Glyph) (fw rw : Int) (p a : Nat)
    (fl : Bool) (st : GreedyS) (g : Glyph)
    (hG : GInv gs fw rw p a fl st) (hgp : gs[p]? = some g)
    (hns : ¬ rubySkip g)
    (hsp : g.split = Split.instead ∨ g.split = Split.before)
    (hxw : st.split_g.isSome = true → st.x ≤ st.width)
    (sx : ℚ) (hsx : sx = adv_sum gs (nextStart gs p) (p + 1))
    (d0 : List Glyph)
    (hd0 : (st.split_g = none ∧ d0 = st.done) ∨
      (∃ j0, st.split_g = some j0 ∧ d0 = setSplitAt st.done j0 Split.none)) :
    GInv gs fw rw (p + 1) a fl
      { width := st.width, x := st.x + g.advance + st.ignored, splitx := sx,
        ignored := 0, split_g := some st.done.length, done := d0 ++ [g] } := by
  have hplt : p < gs.length := by
    by_contra hcon
    rw [List.getElem?_eq_none (Nat.le_of_not_lt hcon)] at hgp
    exact Option.noConfusion hgp
  have hc : contrib gs p = g.advance := contrib_eq_adv gs p g hgp hns
  have hcand : isCand gs p := ⟨g, hgp, hns, hsp⟩
  have hd0len : d0.length = p := by
    rcases hd0 with ⟨_, hd⟩ | ⟨j0, _, hd⟩
    · rw [hd]; exact hG.hlen
    · rw [hd, setSplitAt_length]; exact hG.hlen
  have hlow : ∀ i, i < p → (∀ j1, st.split_g = some j1 → i ≠ j1) →
      osplit (d0 ++ [g]) i = osplit st.done i := by
    intro i hi hne
    rw [osplit_append_lt d0 g i (by rw [hd0len]; exact hi)]
    rcases hd0 with ⟨hsg, hd⟩ | ⟨j0, hsg, hd⟩
    · rw [hd]
    · rw [hd]
      exact osplit_setSplitAt_ne st.done j0 Split.none i
        (fun hcon => hne j0 hsg hcon.symm)
  have hat : osplit (d0 ++ [g]) p = some g.split := by
    rw [← hd0len]
    exact osplit_append_len d0 g
  have hosp : osplit gs p = some g.split := by
    unfold osplit
    rw [hgp]
    rfl
  refine ⟨by simp [hd0len], hplt, Nat.le_succ_of_le hG.hap, rfl, ?_,
    hG.hwidth, hG.hfl_a, ?_, ?_, ?_, ?_, ?_, ?_, ?_, ?_⟩
  · show st.x + g.advance + st.ignored = adv_sum gs a (p + 1)
    rw [hG.hign, add_zero, adv_sum_succ gs a p hG.hap, hc, hG.hx]
  · -- hfl_zero
    intro hfl h0
    show some st.done.length = some 0
    rcases Nat.eq_zero_or_pos p with hp0 | hp0
    · rw [hG.hlen, hp0]
    · exfalso
      rcases hd0 with ⟨hsg, hd⟩ | ⟨j0, hsg, hd⟩
      · rw [hd] at h0
        have h0' : osplit (st.done ++ [g]) 0 = osplit st.done 0 :=
          osplit_append_lt st.done g 0 (by rw [hG.hlen]; exact hp0)
        rw [h0'] at h0
        have := hG.hfl_zero hfl h0
        rw [hsg] at this
        exact Option.noConfusion this
      · by_cases hj00 : j0 = 0
        · subst hj00
          rw [hd] at h0
          have h0' : osplit (setSplitAt st.done 0 Split.none ++ [g]) 0 =
              osplit (setSplitAt st.done 0 Split.none) 0 :=
            osplit_append_lt _ g 0 (by rw [setSplitAt_length, hG.hlen]; exact hp0)
          rw [h0', osplit_setSplitAt_self st.done 0 Split.none
            (by rw [hG.hlen]; exact hp0)] at h0
          exact absurd (Option.some.inj h0) (by simp)
        · rw [hd] at h0
          have h0' : osplit (setSplitAt st.done j0 Split.none ++ [g]) 0 =
              osplit (setSplitAt st.done j0 Split.none) 0 :=
            osplit_append_lt _ g 0 (by rw [setSplitAt_length, hG.hlen]; exact hp0)
          rw [h0', osplit_setSplitAt_ne st.done j0 Split.none 0 hj00] at h0
          have := hG.hfl_zero hfl h0
          rw [hsg] at this
          exact hj00 (Option.some.inj this)
  · -- hnofl0
    intro hfl ha0
    obtain ⟨h0, hp⟩ := hG.hnofl0 hfl ha0
    have hp0 : 0 < p := by
      rw [← hG.hlen]
      exact osplit_lt_length st.done 0 Split.before h0
    constructor
    · rcases hd0 with ⟨hsg, hd⟩ | ⟨j0, hsg, hd⟩
      · rw [hd, osplit_append_lt st.done g 0 (by rw [hG.hlen]; exact hp0)]
        exact h0
      · have hj00 : j0 ≠ 0 := by
          intro hcon
          rw [hcon] at hsg
          exact hp hsg
        rw [hd, osplit_append_lt _ g 0
            (by rw [setSplitAt_length, hG.hlen]; exact hp0),
          osplit_setSplitAt_ne st.done j0 Split.none 0 hj00]
        exact h0
    · intro hcon
      have : st.done.length = 0 := Option.some.inj hcon
      rw [hG.hlen] at this
      omega
  · -- ha_start
    rcases Nat.eq_zero_or_pos a with ha0 | ha0
    · exact Or.inl ha0
    rcases hG.ha_start with h | h | ⟨h, hp⟩
    · exact Or.inl h
    · refine Or.inr (Or.inl ?_)
      have hlt : a - 1 < p := by
        rw [← hG.hlen]
        exact osplit_lt_length st.done (a - 1) Split.instead h
      have hne : ∀ j1, st.split_g = some j1 → a - 1 ≠ j1 := by
        intro j1 hsg1
        have hj1 := (hG.hpend j1 hsg1).1
        omega
      rw [hlow (a - 1) hlt hne]
      exact h
    · have hlt : a < p := by
        rw [← hG.hlen]
        exact osplit_lt_length st.done a Split.before h
      refine Or.inr (Or.inr ⟨?_, ?_⟩)
      · have hne : ∀ j1, st.split_g = some j1 → a ≠ j1 := by
          intro j1 hsg1 hcon
          subst hcon
          exact hp hsg1
        rw [hlow a hlt hne]
        exact h
      · intro hcon
        have : st.done.length = a := Option.some.inj hcon
        rw [hG.hlen] at this
        omega
  · -- hinterior
    intro i hi1 hi2 hi3
    have hip : i ≠ p := by
      intro hcon
      exact hi3 (by rw [hG.hlen, hcon])
    have hilt : i < p := by omega
    rcases hd0 with ⟨hsg, hd⟩ | ⟨j0, hsg, hd⟩
    · have hne : ∀ j1, st.split_g = some j1 → i ≠ j1 := by
        intro j1 hsg1
        rw [hsg] at hsg1
        exact Option.noConfusion hsg1
      rw [hlow i hilt hne]
      exact hG.hinterior i hi1 hilt (by rw [hsg]; simp)
    · by_cases hij : i = j0
      · have hj0lt : j0 < p := (hG.hpend j0 hsg).2.1
        have heq : osplit (d0 ++ [g]) i = some Split.none := by
          rw [hd, osplit_append_lt _ g i
              (by rw [setSplitAt_length, hG.hlen]; exact hilt), hij]
          exact osplit_setSplitAt_self st.done j0 Split.none
            (by rw [hG.hlen]; exact hj0lt)
        rw [heq]
        exact ⟨by simp, fun _ => by simp⟩
      · have hne : ∀ j1, st.split_g = some j1 → i ≠ j1 := by
          intro j1 hsg1
          rw [hsg] at hsg1
          have := Option.some.inj hsg1
          omega
        rw [hlow i hilt hne]
        refine hG.hinterior i hi1 hilt ?_
        rw [hsg]
        intro hcon
        exact hij (Option.some.inj hcon).symm
  · -- hpend
    intro j hj
    have hjp : j = p := by
      have := Option.some.inj hj
      rw [hG.hlen] at this
      exact this.symm
    rw [hjp]
    refine ⟨hG.hap, Nat.lt_succ_self p, hcand, by rw [hat, hosp], ?_, ?_⟩
    · exact hsx
    · intro i hi1 hi2
      omega
  · -- hnone
    intro hcon
    exact Option.noConfusion hcon
  · -- hK
    intro q hq1 hq2 hq3 hq4
    show adv_sum gs a q ≤ st.width
    rcases Nat.lt_succ_iff_lt_or_eq.mp hq2 with hq2 | hq2
    · exact hG.hK q hq1 hq2 hq3 hq4
    · subst hq2
      cases hsg : st.split_g with
      | none =>
          exfalso
          rcases hq4 with ⟨i, hi1, hi2, hi3⟩
          exact hG.hnone hsg i hi1 hi2 hi3
      | some j0 =>
          rw [← hG.hx]
          exact hxw (by rw [hsg]; rfl)
  · -- hpast
    intro A E hAE hEa hshape hprov
    have hap := hG.hap
    have hshape1 : LineShape d0 (some st.done.length) A E :=
      LineShape_append d0 g (some st.done.length) A E hAE
        (by rw [hd0len]; omega) (Or.inr (by rw [hd0len, hG.hlen])) hshape
    have hbud : lineBudget fw rw (d0 ++ [g]) A = lineBudget fw rw st.done A := by
      have h0p : 0 < d0.length := by rw [hd0len]; omega
      rw [lineBudget_append fw rw d0 g A h0p]
      rcases hd0 with ⟨_, hd⟩ | ⟨j0, hsg, hd⟩
      · rw [hd]
      · have hj0a : a ≤ j0 := (hG.hpend j0 hsg).1
        rw [hd, lineBudget_set_ne fw rw st.done j0 Split.none A (by omega)]
    have hshape2 : LineShape st.done st.split_g A E := by
      rcases hd0 with ⟨hsg, hd⟩ | ⟨j0, hsg, hd⟩
      · rw [hsg]
        rw [hd] at hshape1
        exact LineShape_none st.done (some st.done.length) A E hshape1
      · rw [hsg]
        rw [hd] at hshape1
        have hj0a : a ≤ j0 := (hG.hpend j0 hsg).1
        exact LineShape_unset st.done j0 (some st.done.length) A E hAE
          (by omega) hshape1
    rw [hbud] at hprov ⊢
    exact hG.hpast A E hAE hEa hshape2 hprov

/-- The invariant survives the accumulation of an ordinary (no-split)
glyph at position `p` after a passed (or vacuous) overflow check. -/
lemma ginv_step_add_none (gs : List Glyph) (fw rw : Int) (p a : Nat)
    (fl : Bool) (st : GreedyS) (g : Glyph)
    (hG : GInv gs fw rw p a fl st) (hgp : gs[p]? = some g)
    (hns : ¬ rubySkip g) (hsp : g.split = Split.none)
    (hxw : st.split_g.isSome = true → st.x ≤ st.width) :
    GInv gs fw rw (p + 1) a fl
      { width := st.width, x := st.x + g.advance + st.ignored,
        splitx := st.splitx + g.advance + st.ignored, ignored := 0,
        split_g := st.split_g, done := st.done ++ [g] } := by
  have hplt : p < gs.length := by
    by_contra hcon
    rw [List.getElem?_eq_none (Nat.le_of_not_lt hcon)] at hgp
    exact Option.noConfusion hgp
  have hc : contrib gs p = g.advance := contrib_eq_adv gs p g hgp hns
  have hlow : ∀ i, i < p → osplit (st.done ++ [g]) i = osplit st.done i :=
    fun i hi => osplit_append_lt st.done g i (by rw [hG.hlen]; exact hi)
  have hat : osplit (st.done ++ [g]) p = some g.split := by
    rw [← hG.hlen]
    exact osplit_append_len st.done g
  refine ⟨by simp [hG.hlen], hplt, Nat.le_succ_of_le hG.hap, rfl, ?_,
    hG.hwidth, hG.hfl_a, ?_, ?_, ?_, ?_, ?_, ?_, ?_, ?_⟩
  · show st.x + g.advance + st.ignored = adv_sum gs a (p + 1)
    rw [hG.hign, add_zero, adv_sum_succ gs a p hG.hap, hc, hG.hx]
  · -- hfl_zero
    intro hfl h0
    rcases Nat.eq_zero_or_pos p with hp0 | hp0
    · exfalso
      have hd : st.done = [] := List.length_eq_zero.mp (by rw [hG.hlen, hp0])
      rw [hd] at h0
      have : osplit ([] ++ [g]) 0 = some g.split := by simp [osplit]
      rw [this, hsp] at h0
      exact absurd (Option.some.inj h0) (by simp)
    · rw [hlow 0 hp0] at h0
      exact hG.hfl_zero hfl h0
  · -- hnofl0
    intro hfl ha0
    obtain ⟨h0, hp⟩ := hG.hnofl0 hfl ha0
    have hp0 : 0 < p := by
      rw [← hG.hlen]
      exact osplit_lt_length st.done 0 Split.before h0
    exact ⟨by rw [hlow 0 hp0]; exact h0, hp⟩
  · -- ha_start
    rcases hG.ha_start with h | h | ⟨h, hp⟩
    · exact Or.inl h
    · refine Or.inr (Or.inl ?_)
      have : a - 1 < p := by
        rw [← hG.hlen]
        exact osplit_lt_length st.done (a - 1) Split.instead h
      rw [hlow (a - 1) this]
      exact h
    · refine Or.inr (Or.inr ⟨?_, hp⟩)
      have : a < p := by
        rw [← hG.hlen]
        exact osplit_lt_length st.done a Split.before h
      rw [hlow a this]
      exact h
  · -- hinterior
    intro i hi1 hi2 hi3
    rcases Nat.lt_succ_iff_lt_or_eq.mp hi2 with hi2 | hi2
    · rw [hlow i hi2]
      exact hG.hinterior i hi1 hi2 hi3
    · subst hi2
      rw [hat, hsp]
      exact ⟨by simp, fun _ => by simp⟩
  · -- hpend
    intro j hj
    obtain ⟨h1, h2, h3, h4, h5, h6⟩ := hG.hpend j hj
    refine ⟨h1, Nat.lt_succ_of_lt h2, h3, by rw [hlow j h2]; exact h4, ?_, ?_⟩
    · show st.splitx + g.advance + st.ignored =
        adv_sum gs (nextStart gs j) (p + 1)
      rw [hG.hign, add_zero,
        adv_sum_succ gs (nextStart gs j) p (nextStart_le gs j p h2), hc, h5]
    · intro i hi1 hi2
      rcases Nat.lt_succ_iff_lt_or_eq.mp hi2 with hi2 | hi2
      · exact h6 i hi1 hi2
      · subst hi2
        intro hcand
        rcases hcand with ⟨g', hg', _, hsp' | hsp'⟩ <;>
          · rw [hgp] at hg'
            cases hg'
            rw [hsp] at hsp'
            exact Split.noConfusion hsp'
  · -- hnone
    intro hnn i hi1 hi2
    rcases Nat.lt_succ_iff_lt_or_eq.mp hi2 with hi2 | hi2
    · exact hG.hnone hnn i hi1 hi2
    · subst hi2
      intro hcand
      rcases hcand.1 with ⟨g', hg', _, hsp' | hsp'⟩ <;>
        · rw [hgp] at hg'
          cases hg'
          rw [hsp] at hsp'
          exact Split.noConfusion hsp'
  · -- hK
    intro q hq1 hq2 hq3 hq4
    show adv_sum gs a q ≤ st.width
    rcases Nat.lt_succ_iff_lt_or_eq.mp hq2 with hq2 | hq2
    · exact hG.hK q hq1 hq2 hq3 hq4
    · subst hq2
      cases hsg : st.split_g with
      | none =>
          exfalso
          rcases hq4 with ⟨i, hi1, hi2, hi3⟩
          exact hG.hnone hsg i hi1 hi2 hi3
      | some j0 =>
          rw [← hG.hx]
          exact hxw (by rw [hsg]; rfl)
  · -- hpast
    intro A E hAE hEa hshape hprov
    have hap := hG.hap
    have hEp : E + 1 ≤ st.done.length := by
      rw [hG.hlen]; omega
    have h0p : 0 < st.done.length := by
      rw [hG.hlen]; omega
    have hshape' := LineShape_append st.done g st.split_g A E hAE hEp
      (Or.inl hsp) hshape
    rw [lineBudget_append fw rw st.done g A h0p] at hprov ⊢
    exact hG.hpast A E hAE hEa hshape' hprov

/-- A line of the processed prefix cannot straddle the current line start:
the committed boundary evidence at `a` contradicts the absence of breaks
inside the line. -/
lemma ginv_straddle (gs : List Glyph) (fw rw : Int) (p a : Nat) (fl : Bool)
    (st : GreedyS) (hG : GInv gs fw rw p a fl st) (done' : List Glyph)
    (hlow : ∀ i, i < p → (∀ j1, st.split_g = some j1 → i ≠ j1) →
      osplit done' i = osplit st.done i)
    (A E : Nat) (_hAE : A ≤ E) (haE : a ≤ E)
    (s2 : ∀ i, A < i → i ≤ E → osplit done' i ≠ some Split.before)
    (s3 : ∀ i, A ≤ i → i < E → osplit done' i ≠ some Split.instead) :
    a ≤ A := by
  by_contra hcon
  push_neg at hcon
  rcases hG.ha_start with h | h | ⟨h, hp⟩
  · omega
  · have hlt : a - 1 < p := by
      have := osplit_lt_length st.done (a - 1) Split.instead h
      rw [hG.hlen] at this
      exact this
    have hne : ∀ j1, st.split_g = some j1 → a - 1 ≠ j1 := by
      intro j1 hj1
      have := (hG.hpend j1 hj1).1
      omega
    exact s3 (a - 1) (by omega) (by omega) (by rw [hlow _ hlt hne]; exact h)
  · have hlt : a < p := by
      have := osplit_lt_length st.done a Split.before h
      rw [hG.hlen] at this
      exact this
    have hne : ∀ j1, st.split_g = some j1 → a ≠ j1 := by
      intro j1 hj1 hcon2
      subst hcon2
      exact hp hj1
    exact s2 a (by omega) (by omega) (by rw [hlow _ hlt hne]; exact h)

/-- A line of the processed prefix that reaches at least the current line
start and ends at or before the pending candidate must start exactly at
the current line start. -/
lemma ginv_fresh_A (gs : List Glyph) (fw rw : Int) (p a : Nat) (fl : Bool)
    (st : GreedyS) (hG : GInv gs fw rw p a fl st)
    (j0 : Nat) (hj0 : st.split_g = some j0) (done' : List Glyph)
    (hlow : ∀ i, i < p → (∀ j1, st.split_g = some j1 → i ≠ j1) →
      osplit done' i = osplit st.done i)
    (hatj : osplit done' j0 = osplit st.done j0)
    (A E : Nat) (hAE : A ≤ E) (haA : a ≤ A) (hEj : E ≤ j0) (hjp : j0 < p)
    (hcase : osplit st.done j0 = some Split.instead ∨ E < j0)
    (s1 : A = 0 ∨ osplit done' (A - 1) = some Split.instead ∨
      osplit done' A = some Split.before) :
    A = a := by
  by_contra hne
  have hAgt : a < A := by omega
  rcases s1 with h | h | h
  · omega
  · by_cases hAj : A - 1 = j0
    · omega
    · have hne1 : ∀ j1, st.split_g = some j1 → A - 1 ≠ j1 := by
        intro j1 hj1
        rw [hj0] at hj1
        have := Option.some.inj hj1
        omega
      have h' : osplit st.done (A - 1) = some Split.instead := by
        rw [← hlow _ (by omega) hne1]
        exact h
      exact (hG.hinterior (A - 1) (by omega) (by omega)
        (by rw [hj0]; intro hc; exact hAj (Option.some.inj hc).symm)).1 h'
  · by_cases hAj : A = j0
    · rcases hcase with hcase | hcase
      · rw [hAj, hatj, hcase] at h
        exact absurd (Option.some.inj h) (by simp)
      · omega
    · have hne1 : ∀ j1, st.split_g = some j1 → A ≠ j1 := by
        intro j1 hj1
        rw [hj0] at hj1
        have := Option.some.inj hj1
        omega
      have h' : osplit st.done A = some Split.before := by
        rw [← hlow _ (by omega) hne1]
        exact h
      exact (hG.hinterior A (by omega) (by omega)
        (by rw [hj0]; intro hc; exact hAj (Option.some.inj hc).symm)).2
        (by omega) h'

/-- The fitting conclusion for the line committed at the pending
candidate: if a valid candidate of the line fits within the budget (which
equals the scan width), the committed line fits as well, because the
overflow check at the candidate's registration step passed. -/
lemma ginv_fresh_fits (gs : List Glyph) (fw rw : Int) (p a : Nat)
    (fl : Bool) (st : GreedyS) (hG : GInv gs fw rw p a fl st)
    (hadv : ∀ g' ∈ gs, 0 ≤ g'.advance)
    (j0 : Nat) (hj0 : st.split_g = some j0)
    (E : Nat) (hEcase : E = j0 ∨ E + 1 = j0)
    (B : ℚ) (hBw : B = st.width)
    (c : Nat) (hc1 : a ≤ c) (hc2 : c ≤ E) (hc3 : validCand gs a c)
    (hc4 : adv_sum gs a c ≤ B) :
    adv_sum gs a E ≤ B := by
  obtain ⟨hj0a, hj0p, hj0cand, _, _, _⟩ := hG.hpend j0 hj0
  by_cases hcj : c = j0
  · have hE : E = j0 := by omega
    rw [hE, ← hcj]
    exact hc4
  · have hcl : c < j0 := by omega
    have hKj := hG.hK j0 hj0a hj0p (isCand_contribPos gs j0 hj0cand)
      ⟨c, hc1, hcl, hc3⟩
    have hmono : adv_sum gs a E ≤ adv_sum gs a j0 :=
      adv_sum_mono gs hadv a E j0 (by omega) (by omega)
    rw [hBw]
    exact le_trans hmono hKj

/-- The budget of the line that starts at the current line start equals
the scan's current width. -/
lemma ginv_budget_eq (gs : List Glyph) (fw rw : Int) (p a : Nat)
    (fl : Bool) (st : GreedyS) (hG : GInv gs fw rw p a fl st)
    (j0 : Nat) (hj0 : st.split_g = some j0) (done' : List Glyph)
    (hlow0 : 0 < p → osplit done' 0 = osplit st.done 0)
    (hj00 : j0 = 0 → osplit st.done 0 ≠ some Split.before) :
    lineBudget fw rw done' a = st.width := by
  obtain ⟨hj0a, hj0p, _, _, _, _⟩ := hG.hpend j0 hj0
  have hp0 : 0 < p := by omega
  rw [hG.hwidth]
  cases fl with
  | true =>
      have ha0 : a = 0 := hG.hfl_a rfl
      have hnb : osplit done' 0 ≠ some Split.before := by
        intro hcon
        rw [hlow0 hp0] at hcon
        have hsz := hG.hfl_zero rfl hcon
        rw [hj0] at hsz
        exact hj00 (Option.some.inj hsz) hcon
      unfold lineBudget
      rw [if_pos ⟨ha0, hnb⟩]
      simp
  | false =>
      by_cases ha0 : a = 0
      · obtain ⟨h0, _⟩ := hG.hnofl0 rfl ha0
        unfold lineBudget
        rw [if_neg]
        · simp
        · intro hcon
          exact hcon.2 (by rw [hlow0 hp0]; exact h0)
      · unfold lineBudget
        rw [if_neg (fun hcon => ha0 hcon.1)]
        simp

/-- The invariant survives a committed break at the pending candidate
`j0` followed by the processing of the glyph at position `p`: the current
line start advances past the candidate and the budget switches to the
rest-of-line width. -/
lemma ginv_step_commit_core (gs : List Glyph) (fw rw : Int) (p a : Nat)
    (fl : Bool) (st : GreedyS) (g : Glyph) (j0 : Nat)
    (hG : GInv gs fw rw p a fl st) (hgp : gs[p]? = some g)
    (hns : ¬ rubySkip g)
    (hadv : ∀ g' ∈ gs, 0 ≤ g'.advance)
    (hj0 : st.split_g = some j0)
    (sx : ℚ) (pend' : Option Nat)
    (hreg : (g.split = Split.none ∧ pend' = none) ∨
      ((g.split = Split.instead ∨ g.split = Split.before) ∧
        pend' = some st.done.length ∧
        sx = adv_sum gs (nextStart gs p) (p + 1))) :
    GInv gs fw rw (p + 1) (nextStart gs j0) false
      { width := (rw : ℚ), x := st.splitx + g.advance + st.ignored,
        splitx := sx, ignored := 0, split_g := pend',
        done := st.done ++ [g] } := by
  obtain ⟨hj0a, hj0p, hj0cand, hj0sp, hsplitx, hlast⟩ := hG.hpend j0 hj0
  have hplt : p < gs.length := by
    by_contra hcon
    rw [List.getElem?_eq_none (Nat.le_of_not_lt hcon)] at hgp
    exact Option.noConfusion hgp
  have hc : contrib gs p = g.advance := contrib_eq_adv gs p g hgp hns
  have hlow : ∀ i, i < p → osplit (st.done ++ [g]) i = osplit st.done i :=
    fun i hi => osplit_append_lt st.done g i (by rw [hG.hlen]; exact hi)
  have hat : osplit (st.done ++ [g]) p = some g.split := by
    rw [← hG.hlen]
    exact osplit_append_len st.done g
  have hosp : osplit gs p = some g.split := by
    unfold osplit
    rw [hgp]
    rfl
  have hspj := isCand_osplit gs j0 hj0cand
  have hIN : osplit gs j0 = some Split.instead → nextStart gs j0 = j0 + 1 := by
    intro h
    unfold nextStart
    rw [if_pos h]
  have hBEn : osplit gs j0 ≠ some Split.instead → nextStart gs j0 = j0 := by
    intro h
    unfold nextStart
    rw [if_neg h]
  have hj0a' : j0 ≤ nextStart gs j0 := by
    unfold nextStart
    split <;> omega
  have hnsle : nextStart gs j0 ≤ p := nextStart_le gs j0 p hj0p
  have hnsa : a ≤ nextStart gs j0 := le_trans hj0a hj0a'
  have hnov : ∀ i, nextStart gs j0 ≤ i → i < p →
      ¬ validCand gs (nextStart gs j0) i := by
    intro i hi1 hi2 ⟨hic, hval⟩
    by_cases hij : i = j0
    · have hnin : osplit gs j0 ≠ some Split.instead := by
        intro hin
        rw [hIN hin] at hi1
        omega
      have hbe : nextStart gs j0 = j0 := hBEn hnin
      rcases hval with hval | hval
      · rw [hij, hbe] at hval
        exact hval rfl
      · rw [hij] at hval
        exact hnin hval
    · exact hlast i (by omega) hi2 hic
  refine ⟨by simp [hG.hlen], hplt, le_trans hnsle (Nat.le_succ p), rfl, ?_,
    by simp, ?_, ?_, ?_, ?_, ?_, ?_, ?_, ?_, ?_⟩
  · show st.splitx + g.advance + st.ignored =
      adv_sum gs (nextStart gs j0) (p + 1)
    rw [hG.hign, add_zero, adv_sum_succ gs (nextStart gs j0) p hnsle, hc,
      hsplitx]
  · intro h
    exact Bool.noConfusion h
  · intro h
    exact Bool.noConfusion h
  · -- hnofl0
    intro _ ha'0
    have hnin : osplit gs j0 ≠ some Split.instead := by
      intro hin
      rw [hIN hin] at ha'0
      omega
    have hj00 : j0 = 0 := by
      rw [hBEn hnin] at ha'0
      exact ha'0
    have hbe : osplit gs j0 = some Split.before := hspj.resolve_left hnin
    constructor
    · rw [hlow 0 (by omega)]
      rw [← hj00, hj0sp]
      exact hbe
    · rcases hreg with ⟨_, hpe⟩ | ⟨_, hpe, _⟩
      · rw [hpe]
        simp
      · rw [hpe, hG.hlen]
        intro hcon
        have := Option.some.inj hcon
        omega
  · -- ha_start
    by_cases hin : osplit gs j0 = some Split.instead
    · refine Or.inr (Or.inl ?_)
      rw [hIN hin]
      simp only [Nat.add_sub_cancel]
      rw [hlow j0 hj0p, hj0sp]
      exact hin
    · have hbe : osplit gs j0 = some Split.before := hspj.resolve_left hin
      refine Or.inr (Or.inr ⟨?_, ?_⟩)
      · rw [hBEn hin, hlow j0 hj0p, hj0sp]
        exact hbe
      · rw [hBEn hin]
        rcases hreg with ⟨_, hpe⟩ | ⟨_, hpe, _⟩
        · rw [hpe]
          simp
        · rw [hpe, hG.hlen]
          intro hcon
          have := Option.some.inj hcon
          omega
  · -- hinterior
    intro i hi1 hi2 hi3
    rcases Nat.lt_succ_iff_lt_or_eq.mp hi2 with hi2 | hi2
    · by_cases hij : i = j0
      · have hnin : osplit gs j0 ≠ some Split.instead := by
          intro hin
          rw [hIN hin, hij] at hi1
          omega
        have hbe : osplit gs j0 = some Split.before := hspj.resolve_left hnin
        have hioe : osplit (st.done ++ [g]) i = some Split.before := by
          rw [hij, hlow j0 hj0p, hj0sp]
          exact hbe
        rw [hioe]
        refine ⟨by simp, ?_⟩
        intro hne
        exfalso
        rw [hBEn hnin] at hne
        exact hne hij
      · have higt : j0 < i := by omega
        have hold := hG.hinterior i (by omega) hi2
          (by rw [hj0]; intro hcon; exact hij (Option.some.inj hcon).symm)
        rw [hlow i hi2]
        exact ⟨hold.1, fun _ => hold.2 (by omega)⟩
    · subst hi2
      rcases hreg with ⟨hspn, _⟩ | ⟨_, hpe, _⟩
      · rw [hat, hspn]
        exact ⟨by simp, fun _ => by simp⟩
      · exfalso
        apply hi3
        rw [hpe, hG.hlen]
  · -- hpend
    intro j hj
    rcases hreg with ⟨_, hpe⟩ | ⟨hspg, hpe, hsx⟩
    · rw [hpe] at hj
      exact Option.noConfusion hj
    · rw [hpe] at hj
      have hjp : j = p := by
        have := Option.some.inj hj
        rw [hG.hlen] at this
        exact this.symm
      rw [hjp]
      refine ⟨hnsle, Nat.lt_succ_self p, ⟨g, hgp, hns, hspg⟩,
        by rw [hat, hosp], hsx, ?_⟩
      intro i hi1 hi2
      omega
  · -- hnone
    intro hnn i hi1 hi2
    rcases hreg with ⟨hspn, hpe⟩ | ⟨_, hpe, _⟩
    · rcases Nat.lt_succ_iff_lt_or_eq.mp hi2 with hi2 | hi2
      · exact hnov i hi1 hi2
      · subst hi2
        intro ⟨hic, _⟩
        rcases hic with ⟨g', hg', _, hsp' | hsp'⟩ <;>
          · rw [hgp] at hg'
            cases hg'
            rw [hspn] at hsp'
            exact Split.noConfusion hsp'
    · rw [hpe] at hnn
      exact Option.noConfusion hnn
  · -- hK
    intro q hq1 hq2 hq3 hq4
    exfalso
    rcases hq4 with ⟨i, hi1, hi2, hi3⟩
    exact hnov i hi1 (by omega) hi3
  · -- hpast
    intro A E hAE hEa' hshape hprov
    show adv_sum gs A E ≤ lineBudget fw rw (st.done ++ [g]) A
    have hshapeg : LineShape (st.done ++ [g]) pend' A E := hshape
    have hprovg : ∃ c, A ≤ c ∧ c ≤ E ∧ validCand gs A c ∧
        adv_sum gs A c ≤ lineBudget fw rw (st.done ++ [g]) A := hprov
    obtain ⟨s1, s2, s3, s4⟩ := hshapeg
    by_cases hEa : E + 1 ≤ a
    · -- a previously completed line: transfer to the old state
      have h0p : 0 < st.done.length := by rw [hG.hlen]; omega
      have hside : g.split = Split.none ∨ pend' = some st.done.length := by
        rcases hreg with ⟨hspn, _⟩ | ⟨_, hpe, _⟩
        · exact Or.inl hspn
        · exact Or.inr hpe
      have hs1 : LineShape st.done pend' A E :=
        LineShape_append st.done g pend' A E hAE (by rw [hG.hlen]; omega)
          hside ⟨s1, s2, s3, s4⟩
      have hs2 : LineShape st.done st.split_g A E := by
        rw [hj0]
        obtain ⟨t1, t2, t3, t4⟩ := hs1
        refine ⟨?_, t2, t3, ?_⟩
        · rcases t1 with t1 | t1 | ⟨t1, _⟩
          · exact Or.inl t1
          · exact Or.inr (Or.inl t1)
          · refine Or.inr (Or.inr ⟨t1, ?_⟩)
            intro hcon
            have := Option.some.inj hcon
            omega
        · rcases t4 with t4 | ⟨t4, _⟩
          · exact Or.inl t4
          · by_cases hje : j0 = E + 1
            · rcases hG.ha_start with h | h | ⟨_, hp⟩
              · omega
              · refine Or.inl ?_
                rw [show E = a - 1 from by omega]
                exact h
              · exfalso
                apply hp
                rw [hj0]
                congr 1
                omega
            · refine Or.inr ⟨t4, ?_⟩
              intro hcon
              exact hje (Option.some.inj hcon)
      have hbud : lineBudget fw rw (st.done ++ [g]) A =
          lineBudget fw rw st.done A := lineBudget_append fw rw st.done g A h0p
      rw [hbud] at hprovg ⊢
      exact hG.hpast A E hAE hEa hs2 hprovg
    · -- the freshly completed line
      have haE : a ≤ E := by omega
      have hEp : E < p := by omega
      have hAa : a ≤ A := ginv_straddle gs fw rw p a fl st hG
        (st.done ++ [g]) (fun i hi _ => hlow i hi) A E hAE haE s2 s3
      -- identify the end of the line from the end evidence
      have hend : (osplit gs j0 = some Split.instead ∧ E = j0) ∨
          (osplit gs j0 = some Split.before ∧ E + 1 = j0) := by
        rcases s4 with s4 | ⟨s4, s4p⟩
        · have hE' : osplit st.done E = some Split.instead := by
            rw [← hlow E hEp]
            exact s4
          have hEj : E = j0 := by
            by_contra hne
            exact (hG.hinterior E haE hEp
              (by rw [hj0]; intro hcon; exact hne (Option.some.inj hcon).symm)).1
              hE'
          refine Or.inl ⟨?_, hEj⟩
          rw [← hj0sp, ← hEj]
          exact hE'
        · by_cases hE1p : E + 1 < p
          · have hE' : osplit st.done (E + 1) = some Split.before := by
              rw [← hlow (E + 1) hE1p]
              exact s4
            have hEj : E + 1 = j0 := by
              by_contra hne
              exact (hG.hinterior (E + 1) (by omega) hE1p
                (by rw [hj0]; intro hcon
                    exact hne (Option.some.inj hcon).symm)).2 (by omega) hE'
            refine Or.inr ⟨?_, hEj⟩
            rw [← hj0sp, ← hEj]
            exact hE'
          · exfalso
            have hE1 : E + 1 = p := by omega
            rcases hreg with ⟨hspn, hpe⟩ | ⟨_, hpe, _⟩
            · rw [hE1, hat, hspn] at s4
              exact absurd (Option.some.inj s4) (by simp)
            · apply s4p
              rw [hpe, hG.hlen, hE1]
      have hEj0 : E ≤ j0 := by
        rcases hend with ⟨_, h⟩ | ⟨_, h⟩ <;> omega
      have hcasex : osplit st.done j0 = some Split.instead ∨ E < j0 := by
        rcases hend with ⟨h, hE⟩ | ⟨_, hE⟩
        · refine Or.inl ?_
          rw [hj0sp]
          exact h
        · exact Or.inr (by omega)
      have hAeq : A = a := ginv_fresh_A gs fw rw p a fl st hG j0 hj0
        (st.done ++ [g]) (fun i hi _ => hlow i hi) (hlow j0 hj0p)
        A E hAE hAa hEj0 hj0p hcasex
        (s1.imp id (fun h => h.imp id And.left))
      have hj00 : j0 = 0 → osplit st.done 0 ≠ some Split.before := by
        intro hj0z hcon
        rcases hend with ⟨h, _⟩ | ⟨_, hE⟩
        · have hsp0 : osplit st.done 0 = osplit gs 0 := hj0z ▸ hj0sp
          rw [hsp0] at hcon
          rw [hj0z] at h
          rw [hcon] at h
          exact absurd (Option.some.inj h) (by simp)
        · omega
      have hBw : lineBudget fw rw (st.done ++ [g]) a = st.width :=
        ginv_budget_eq gs fw rw p a fl st hG j0 hj0 (st.done ++ [g])
          (fun hp0 => hlow 0 hp0) hj00
      rcases hprovg with ⟨c, hc1, hc2, hc3, hc4⟩
      rw [hAeq] at hc1 hc3 hc4 ⊢
      rw [hBw] at hc4 ⊢
      exact ginv_fresh_fits gs fw rw p a fl st hG hadv j0 hj0 E
        (by rcases hend with ⟨_, h⟩ | ⟨_, h⟩
            · exact Or.inl h
            · exact Or.inr h) st.width rfl c hc1 hc2 hc3 hc4

lemma ginv_init (gs : List Glyph) (fw rw : Int) :
    GInv gs fw rw 0 0 true (greedy_init fw) := by
  refine ⟨rfl, Nat.zero_le _, Nat.le_refl 0, rfl, ?_, by simp [greedy_init],
    fun _ => rfl,
    ?_, ?_, Or.inl rfl, ?_, ?_, ?_, ?_, ?_⟩
  · rw [adv_sum_refl]; rfl
  · intro _ h2
    simp [greedy_init, osplit] at h2
  · intro h; simp at h
  · intro i _ h2; omega
  · intro j hj; simp [greedy_init] at hj
  · intro _ i _ h2; omega
  · intro q _ h2; omega
  · intro A E _ h2; omega

/-- One full iteration of the `linebreak_greedy` loop preserves the
invariant, for a suitable new line start and first-line flag. -/
lemma ginv_step (gs : List Glyph) (fw rw : Int) (p a : Nat) (fl : Bool)
    (st : GreedyS) (g : Glyph)
    (hG : GInv gs fw rw p a fl st) (hgp : gs[p]? = some g)
    (hadv : ∀ g' ∈ gs, 0 ≤ g'.advance)
    (hruby : ∀ g' ∈ gs, rubySkip g' → g'.split = Split.none)
    (hnoign : ∀ g' ∈ gs, g'.split ≠ Split.ignore) :
    ∃ a' fl', GInv gs fw rw (p + 1) a' fl' (greedy_step (rw : ℚ) st g) := by
  have hgmem : g ∈ gs := List.getElem?_mem hgp
  unfold greedy_step
  by_cases hskip : g.ruby = Ruby.top ∨ g.ruby = Ruby.alt
  · rw [if_pos hskip]
    exact ⟨a, fl, ginv_step_skip gs fw rw p a fl st g hG hgp hskip hruby⟩
  rw [if_neg hskip]
  have hns : ¬ rubySkip g := hskip
  by_cases hign : g.split = Split.ignore
  · exact absurd hign (hnoign g hgmem)
  rw [if_neg hign]
  by_cases hcommit : st.width < st.x ∧ st.split_g.isSome = true
  · obtain ⟨j0, hj0⟩ : ∃ j0, st.split_g = some j0 := by
      cases hsg : st.split_g with
      | none =>
          rw [hsg] at hcommit
          simp at hcommit
      | some j => exact ⟨j, rfl⟩
    have hgc : greedy_commit (rw : ℚ) st =
        { st with x := st.splitx, split_g := none, width := (rw : ℚ) } := by
      unfold greedy_commit
      rw [if_pos hcommit]
    rw [hgc]
    cases hsp : g.split with
    | ignore => exact absurd hsp hign
    | none =>
        have hadd : greedy_add
            { st with x := st.splitx, split_g := none, width := (rw : ℚ) } g =
            { width := (rw : ℚ), x := st.splitx + g.advance + st.ignored,
              splitx := st.splitx + g.advance + st.ignored, ignored := 0,
              split_g := none, done := st.done ++ [g] } := by
          unfold greedy_add
          rw [hsp]
        rw [hadd]
        exact ⟨nextStart gs j0, false,
          ginv_step_commit_core gs fw rw p a fl st g j0 hG hgp hns hadv hj0
            (st.splitx + g.advance + st.ignored) none (Or.inl ⟨hsp, rfl⟩)⟩
    | instead =>
        have hosp : osplit gs p = some Split.instead := by
          unfold osplit
          rw [hgp]
          simp [hsp]
        have hsx : (0 : ℚ) = adv_sum gs (nextStart gs p) (p + 1) := by
          unfold nextStart
          rw [if_pos hosp, adv_sum_refl]
        have hadd : greedy_add
            { st with x := st.splitx, split_g := none, width := (rw : ℚ) } g =
            { width := (rw : ℚ), x := st.splitx + g.advance + st.ignored,
              splitx := 0, ignored := 0, split_g := some st.done.length,
              done := st.done ++ [g] } := by
          unfold greedy_add
          rw [hsp]
        rw [hadd]
        exact ⟨nextStart gs j0, false,
          ginv_step_commit_core gs fw rw p a fl st g j0 hG hgp hns hadv hj0
            0 (some st.done.length) (Or.inr ⟨Or.inl hsp, rfl, hsx⟩)⟩
    | before =>
        have hosp : osplit gs p = some Split.before := by
          unfold osplit
          rw [hgp]
          simp [hsp]
        have hnin : osplit gs p ≠ some Split.instead := by
          rw [hosp]
          simp
        have hsx : g.advance = adv_sum gs (nextStart gs p) (p + 1) := by
          unfold nextStart
          rw [if_neg hnin, adv_sum_succ gs p p (le_refl p), adv_sum_refl,
            zero_add, contrib_eq_adv gs p g hgp hns]
        have hadd : greedy_add
            { st with x := st.splitx, split_g := none, width := (rw : ℚ) } g =
            { width := (rw : ℚ), x := st.splitx + g.advance + st.ignored,
              splitx := g.advance, ignored := 0,
              split_g := some st.done.length,
              done := st.done ++ [g] } := by
          unfold greedy_add
          rw [hsp]
        rw [hadd]
        exact ⟨nextStart gs j0, false,
          ginv_step_commit_core gs fw rw p a fl st g j0 hG hgp hns hadv hj0
            g.advance (some st.done.length) (Or.inr ⟨Or.inr hsp, rfl, hsx⟩)⟩
  · have hgc : greedy_commit (rw : ℚ) st = st := by
      unfold greedy_commit
      rw [if_neg hcommit]
    rw [hgc]
    have hxw : st.split_g.isSome = true → st.x ≤ st.width := by
      intro hs
      by_contra hlt
      exact hcommit ⟨lt_of_not_le hlt, hs⟩
    cases hsp : g.split with
    | ignore => exact absurd hsp hign
    | none =>
        have hadd : greedy_add st g =
            { width := st.width, x := st.x + g.advance + st.ignored,
              splitx := st.splitx + g.advance + st.ignored, ignored := 0,
              split_g := st.split_g, done := st.done ++ [g] } := by
          unfold greedy_add
          rw [hsp]
        rw [hadd]
        exact ⟨a, fl,
          ginv_step_add_none gs fw rw p a fl st g hG hgp hns hsp hxw⟩
    | instead =>
        have hosp : osplit gs p = some Split.instead := by
          unfold osplit
          rw [hgp]
          simp [hsp]
        have hsx : (0 : ℚ) = adv_sum gs (nextStart gs p) (p + 1) := by
          unfold nextStart
          rw [if_pos hosp, adv_sum_refl]
        cases hsg : st.split_g with
        | none =>
            have hadd : greedy_add st g =
                { width := st.width, x := st.x + g.advance + st.ignored,
                  splitx := 0, ignored := 0,
                  split_g := some st.done.length,
                  done := st.done ++ [g] } := by
              unfold greedy_add
              rw [hsp, hsg]
            rw [hadd]
            exact ⟨a, fl,
              ginv_step_reg_core gs fw rw p a fl st g hG hgp hns (Or.inl hsp)
                hxw 0 hsx st.done (Or.inl ⟨hsg, rfl⟩)⟩
        | some jj =>
            have hadd : greedy_add st g =
                { width := st.width, x := st.x + g.advance + st.ignored,
                  splitx := 0, ignored := 0,
                  split_g := some st.done.length,
                  done := setSplitAt st.done jj Split.none ++ [g] } := by
              unfold greedy_add
              rw [hsp, hsg]
            rw [hadd]
            exact ⟨a, fl,
              ginv_step_reg_core gs fw rw p a fl st g hG hgp hns (Or.inl hsp)
                hxw 0 hsx (setSplitAt st.done jj Split.none)
                (Or.inr ⟨jj, hsg, rfl⟩)⟩
    | before =>
        have hosp : osplit gs p = some Split.before := by
          unfold osplit
          rw [hgp]
          simp [hsp]
        have hnin : osplit gs p ≠ some Split.instead := by
          rw [hosp]
          simp
        have hsx : g.advance = adv_sum gs (nextStart gs p) (p + 1) := by
          unfold nextStart
          rw [if_neg hnin, adv_sum_succ gs p p (le_refl p), adv_sum_refl,
            zero_add, contrib_eq_adv gs p g hgp hns]
        cases hsg : st.split_g with
        | none =>
            have hadd : greedy_add st g =
                { width := st.width, x := st.x + g.advance + st.ignored,
                  splitx := g.advance, ignored := 0,
                  split_g := some st.done.length,
                  done := st.done ++ [g] } := by
              unfold greedy_add
              rw [hsp, hsg]
            rw [hadd]
            exact ⟨a, fl,
              ginv_step_reg_core gs fw rw p a fl st g hG hgp hns (Or.inr hsp)
                hxw g.advance hsx st.done (Or.inl ⟨hsg, rfl⟩)⟩
        | some jj =>
            have hadd : greedy_add st g =
                { width := st.width, x := st.x + g.advance + st.ignored,
                  splitx := g.advance, ignored := 0,
                  split_g := some st.done.length,
                  done := setSplitAt st.done jj Split.none ++ [g] } := by
              unfold greedy_add
              rw [hsp, hsg]
            rw [hadd]
            exact ⟨a, fl,
              ginv_step_reg_core gs fw rw p a fl st g hG hgp hns (Or.inr hsp)
                hxw g.advance hsx (setSplitAt st.done jj Split.none)
                (Or.inr ⟨jj, hsg, rfl⟩)⟩

lemma ginv_fold (gs : List Glyph) (fw rw : Int)
    (hadv : ∀ g' ∈ gs, 0 ≤ g'.advance)
    (hruby : ∀ g' ∈ gs, rubySkip g' → g'.split = Split.none)
    (hnoign : ∀ g' ∈ gs, g'.split ≠ Split.ignore) :
    ∀ (rest pre : List Glyph) (st : GreedyS) (a : Nat) (fl : Bool),
      gs = pre ++ rest → GInv gs fw rw pre.length a fl st →
      ∃ a' fl', GInv gs fw rw gs.length a' fl'
        (rest.foldl (greedy_step (rw : ℚ)) st) := by
  intro rest
  induction rest with
  | nil =>
      intro pre st a fl hsplit hG
      rw [List.foldl_nil]
      refine ⟨a, fl, ?_⟩
      have hlen : gs.length = pre.length := by rw [hsplit]; simp
      rw [hlen]
      exact hG
  | cons g rest ih =>
      intro pre st a fl hsplit hG
      rw [List.foldl_cons]
      have hgp : gs[pre.length]? = some g := by
        rw [hsplit, List.getElem?_append_right (Nat.le_refl _)]
        simp
      obtain ⟨a', fl', hG'⟩ := ginv_step gs fw rw pre.length a fl st g hG hgp
        hadv hruby hnoign
      have hsplit' : gs = (pre ++ [g]) ++ rest := by rw [hsplit]; simp
      refine ih (pre ++ [g]) (greedy_step (rw : ℚ) st g) a' fl' hsplit' ?_
      have hlen' : (pre ++ [g]).length = pre.length + 1 := by simp
      rw [hlen']
      exact hG'

lemma ginv_budget_eq_none (gs : List Glyph) (fw rw : Int) (p a : Nat)
    (fl : Bool) (st : GreedyS) (hG : GInv gs fw rw p a fl st)
    (hsg : st.split_g = none) :
    lineBudget fw rw st.done a = st.width := by
  rw [hG.hwidth]
  cases fl with
  | true =>
      have ha0 : a = 0 := hG.hfl_a rfl
      have hnb : osplit st.done 0 ≠ some Split.before := by
        intro hcon
        have := hG.hfl_zero rfl hcon
        rw [hsg] at this
        exact Option.noConfusion this
      unfold lineBudget
      rw [if_pos ⟨ha0, hnb⟩]
      simp
  | false =>
      by_cases ha0 : a = 0
      · obtain ⟨h0, _⟩ := hG.hnofl0 rfl ha0
        unfold lineBudget
        rw [if_neg (fun hcon => hcon.2 h0)]
        simp
      · unfold lineBudget
        rw [if_neg (fun hcon => ha0 hcon.1)]
        simp

lemma ginv_budget_eq_unset (gs : List Glyph) (fw rw : Int) (p a : Nat)
    (fl : Bool) (st : GreedyS) (hG : GInv gs fw rw p a fl st)
    (j : Nat) (hj : st.split_g = some j) :
    lineBudget fw rw (setSplitAt st.done j Split.none) a = st.width := by
  obtain ⟨hja, hjp, _, _, _, _⟩ := hG.hpend j hj
  have hjdn : j < st.done.length := by rw [hG.hlen]; exact hjp
  rw [hG.hwidth]
  cases fl with
  | true =>
      have ha0 : a = 0 := hG.hfl_a rfl
      have hnb : osplit (setSplitAt st.done j Split.none) 0 ≠
          some Split.before := by
        intro hcon
        by_cases hj0 : j = 0
        · rw [hj0] at hjdn
          rw [hj0, osplit_setSplitAt_self st.done 0 Split.none hjdn] at hcon
          exact absurd (Option.some.inj hcon) (by simp)
        · rw [osplit_setSplitAt_ne st.done j Split.none 0 hj0] at hcon
          have := hG.hfl_zero rfl hcon
          rw [hj] at this
          exact hj0 (Option.some.inj this)
      unfold lineBudget
      rw [if_pos ⟨ha0, hnb⟩]
      simp
  | false =>
      by_cases ha0 : a = 0
      · obtain ⟨h0, hpne⟩ := hG.hnofl0 rfl ha0
        have hj0 : j ≠ 0 := fun hcon => hpne (by rw [hj, hcon])
        unfold lineBudget
        rw [if_neg]
        · simp
        · intro hcon
          exact hcon.2
            (by rw [osplit_setSplitAt_ne st.done j Split.none 0 hj0]; exact h0)
      · unfold lineBudget
        rw [if_neg (fun hcon => ha0 hcon.1)]
        simp

/-- The frame relation between the input and the full output of
`linebreak_greedy` (also established separately for C10): needed here to
carry advances and ruby flags from the output back to the input. -/
lemma greedy_frame_out (gs : List Glyph) (fw rw : Int) :
    GreedyFrame gs (linebreak_greedy gs fw rw) := by
  have h0 : GreedyFrame [] ((greedy_init fw).done) := by
    refine ⟨rfl, ?_⟩
    intro i g' h
    simp [greedy_init] at h
  have hf := greedy_fold_frame (rw : ℚ) gs [] (greedy_init fw) h0
  rw [List.nil_append] at hf
  unfold linebreak_greedy greedy_finish
  cases hfix : (if (gs.foldl (greedy_step (rw : ℚ)) (greedy_init fw)).width <
      (gs.foldl (greedy_step (rw : ℚ)) (greedy_init fw)).x then none
    else (gs.foldl (greedy_step (rw : ℚ)) (greedy_init fw)).split_g) with
  | none => exact hf
  | some j => exact GreedyFrame_set gs _ j hf

lemma contrib_eq_of_frame (l1 l2 : List Glyph) (h : GreedyFrame l1 l2)
    (i : Nat) : contrib l2 i = contrib l1 i := by
  obtain ⟨hlen, hfr⟩ := h
  cases h2 : l2[i]? with
  | some g' =>
      obtain ⟨g, hg, hset, _⟩ := hfr i g' h2
      have he2 : contrib l2 i =
          if g'.ruby = Ruby.top ∨ g'.ruby = Ruby.alt then 0
          else g'.advance := by
        unfold contrib
        rw [h2]
      have he1 : contrib l1 i =
          if g.ruby = Ruby.top ∨ g.ruby = Ruby.alt then 0 else g.advance := by
        unfold contrib
        rw [hg]
      have hr : g'.ruby = g.ruby := by rw [hset]; rfl
      have ha : g'.advance = g.advance := by rw [hset]; rfl
      rw [he2, he1, hr, ha]
  | none =>
      have hge : l2.length ≤ i := by
        by_contra hcon
        push_neg at hcon
        rw [List.getElem?_eq_getElem hcon] at h2
        exact Option.noConfusion h2
      have h1 : l1[i]? = none :=
        List.getElem?_eq_none (by rw [← hlen]; exact hge)
      unfold contrib
      rw [h1, h2]

lemma adv_sum_out (gs : List Glyph) (fw rw : Int) (x y : Nat) :
    adv_sum (linebreak_greedy gs fw rw) x y = adv_sum gs x y := by
  unfold adv_sum
  exact Finset.sum_congr rfl
    (fun i _ => contrib_eq_of_frame gs _ (greedy_frame_out gs fw rw) i)

lemma ginv_final (gs : List Glyph) (fw rw : Int)
    (hadv : ∀ g' ∈ gs, 0 ≤ g'.advance)
    (hruby : ∀ g' ∈ gs, rubySkip g' → g'.split = Split.none)
    (hnoign : ∀ g' ∈ gs, g'.split ≠ Split.ignore) :
    ∃ a fl, GInv gs fw rw gs.length a fl
      (gs.foldl (greedy_step (rw : ℚ)) (greedy_init fw)) :=
  ginv_fold gs fw rw hadv hruby hnoign gs [] (greedy_init fw) 0 true
    (by simp) (ginv_init gs fw rw)

/-- C1 : For every glyph list in which ruby annotation glyphs carry no
split, no glyph carries `SPLIT_IGNORE`, and all advances are nonnegative,
and for every pair of width budgets, after `linebreak_greedy` runs, no
resulting line's accumulated advance (excluding the final glyph, per the
last-character-can-overflow policy) exceeds the width budget in effect
for that line, provided at least one valid split candidate of the
classified input existed before the overflow point on that line (a
candidate whose cumulative advance from the line start fits the budget).
The claim as stated over all inputs is refuted by `SPLIT_IGNORE` advance
deferral; see the counterexample. -/
theorem linebreak_greedy_line_fits
    (gs : List Glyph) (fw rw : Int)
    (hadv : ∀ g ∈ gs, 0 ≤ g.advance)
    (hruby : ∀ g ∈ gs, rubySkip g → g.split = Split.none)
    (hnoign : ∀ g ∈ gs, g.split ≠ Split.ignore)
    (a e c : Nat)
    (hline : IsLine (linebreak_greedy gs fw rw) a e)
    (hca : a ≤ c) (hce : c ≤ e) (hcand : validCand gs a c)
    (hcfit : adv_sum (linebreak_greedy gs fw rw) a c ≤
      lineBudget fw rw (linebreak_greedy gs fw rw) a) :
    adv_sum (linebreak_greedy gs fw rw) a e ≤
      lineBudget fw rw (linebreak_greedy gs fw rw) a := by
  rw [adv_sum_out gs fw rw a c] at hcfit
  rw [adv_sum_out gs fw rw a e]
  obtain ⟨a0, fl, hG⟩ := ginv_final gs fw rw hadv hruby hnoign
  generalize hstf : gs.foldl (greedy_step (rw : ℚ)) (greedy_init fw) = st
    at hG
  have hout : linebreak_greedy gs fw rw = greedy_finish st := by
    unfold linebreak_greedy
    rw [hstf]
  rw [hout] at hline hcfit ⊢
  obtain ⟨hae, helen, hstart, hnoBE, hnoIN, hend⟩ := hline
  have hdlen : st.done.length = gs.length := hG.hlen
  have holen : (greedy_finish st).length = gs.length := by
    unfold greedy_finish
    cases hfix : (if st.width < st.x then none else st.split_g) with
    | none => exact hdlen
    | some j => rw [setSplitAt_length]; exact hdlen
  have hen : e < gs.length := by rw [← holen]; exact helen
  have hpendlow : ∀ j, st.split_g = some j → a0 ≤ j ∧ j < gs.length :=
    fun j hj => ⟨(hG.hpend j hj).1, (hG.hpend j hj).2.1⟩
  have hlowout : ∀ i, (∀ j1, st.split_g = some j1 → i ≠ j1) →
      osplit (greedy_finish st) i = osplit st.done i := by
    intro i hne
    unfold greedy_finish
    cases hfix : (if st.width < st.x then none else st.split_g) with
    | none => rfl
    | some j =>
        have hj : st.split_g = some j := by
          by_cases hw : st.width < st.x
          · rw [if_pos hw] at hfix
            exact Option.noConfusion hfix
          · rw [if_neg hw] at hfix
            exact hfix
        exact osplit_setSplitAt_ne st.done j Split.none i
          (fun hcon => hne j hj hcon.symm)
  by_cases hea0 : e + 1 ≤ a0
  · -- a line completed before the scan ended: use the stored conclusion
    have hshape : LineShape st.done st.split_g a e := by
      refine ⟨?_, ?_, ?_, ?_⟩
      · rcases hstart with h | h | h
        · exact Or.inl h
        · refine Or.inr (Or.inl ?_)
          rw [← hlowout (a - 1)
            (fun j1 hj1 => by have := (hpendlow j1 hj1).1; omega)]
          exact h
        · refine Or.inr (Or.inr ⟨?_, ?_⟩)
          · rw [← hlowout a
              (fun j1 hj1 => by have := (hpendlow j1 hj1).1; omega)]
            exact h
          · intro hcon
            have := (hpendlow a hcon).1
            omega
      · intro i hi1 hi2
        rw [← hlowout i
          (fun j1 hj1 => by have := (hpendlow j1 hj1).1; omega)]
        exact hnoBE i hi1 hi2
      · intro i hi1 hi2
        rw [← hlowout i
          (fun j1 hj1 => by have := (hpendlow j1 hj1).1; omega)]
        exact hnoIN i hi1 hi2
      · rcases hend with h | h | h
        · refine Or.inl ?_
          rw [← hlowout e
            (fun j1 hj1 => by have := (hpendlow j1 hj1).1; omega)]
          exact h
        · have hn : e + 1 = gs.length := by rw [← holen]; exact h
          have ha0n : a0 = gs.length := by
            have := hG.hap
            omega
          rcases hG.ha_start with h2 | h2 | ⟨h2, _⟩
          · omega
          · refine Or.inl ?_
            rw [show e = a0 - 1 from by omega]
            exact h2
          · exfalso
            rw [ha0n, osplit_none_of_le st.done gs.length (by rw [hdlen])]
              at h2
            exact Option.noConfusion h2
        · by_cases hje : e + 1 = a0
          · rcases hG.ha_start with h2 | h2 | ⟨h2, hp2⟩
            · omega
            · refine Or.inl ?_
              rw [show e = a0 - 1 from by omega]
              exact h2
            · refine Or.inr ⟨?_, ?_⟩
              · rw [hje]
                exact h2
              · rw [hje]
                exact hp2
          · refine Or.inr ⟨?_, ?_⟩
            · rw [← hlowout (e + 1)
                (fun j1 hj1 => by have := (hpendlow j1 hj1).1; omega)]
              exact h
            · intro hcon
              have := (hpendlow (e + 1) hcon).1
              omega
    have hbud : lineBudget fw rw (greedy_finish st) a =
        lineBudget fw rw st.done a := by
      unfold lineBudget
      rw [hlowout 0 (fun j1 hj1 => by have := (hpendlow j1 hj1).1; omega)]
    rw [hbud] at hcfit ⊢
    exact hG.hpast a e hae hea0 hshape ⟨c, hca, hce, hcand, hcfit⟩
  · -- the line still open when the scan ended
    have ha0e : a0 ≤ e := by omega
    by_cases hxw : st.width < st.x
    · -- final fixup keeps the pending split
      have houtd : greedy_finish st = st.done := by
        unfold greedy_finish
        rw [if_pos hxw]
      rw [houtd] at hstart hnoBE hnoIN hend hcfit ⊢
      have haa0 : a0 ≤ a := ginv_straddle gs fw rw gs.length a0 fl st hG
        st.done (fun i _ _ => rfl) a e hae ha0e hnoBE hnoIN
      cases hsg : st.split_g with
      | none =>
          exfalso
          have haeq : a = a0 := by
            rcases hstart with h | h | h
            · omega
            · by_cases hae0 : a = a0
              · exact hae0
              · exact absurd h
                  ((hG.hinterior (a - 1) (by omega) (by omega)
                    (by rw [hsg]; simp)).1)
            · by_cases hae0 : a = a0
              · exact hae0
              · exact absurd h
                  ((hG.hinterior a (by omega) (by omega)
                    (by rw [hsg]; simp)).2 (by omega))
          rw [haeq] at hca hcand
          exact hG.hnone hsg c hca (by omega) hcand
      | some j =>
          obtain ⟨hja0, hjn, hjcand, hjsp, _, hlast⟩ := hG.hpend j hsg
          rcases hend with hIN | hEnd | hBE
          · -- line ends at a committed SPLIT_INSTEAD: it is the
            -- committed candidate itself
            have hEj : e = j := by
              by_contra hne
              exact (hG.hinterior e ha0e hen
                (by rw [hsg]; intro hc
                    exact hne (Option.some.inj hc).symm)).1 hIN
            have hgsj : osplit gs j = some Split.instead := by
              rw [← hjsp, ← hEj]
              exact hIN
            have haeq : a = a0 := ginv_fresh_A gs fw rw gs.length a0 fl st
              hG j hsg st.done (fun i _ _ => rfl) rfl a e hae haa0
              (by omega) hjn (Or.inl (by rw [hjsp]; exact hgsj)) hstart
            have hj00 : j = 0 → osplit st.done 0 ≠ some Split.before := by
              intro hj0z hcon
              have h1 : osplit st.done 0 = osplit gs 0 := hj0z ▸ hjsp
              have h2 : osplit gs 0 = some Split.instead := hj0z ▸ hgsj
              rw [h1, h2] at hcon
              exact absurd (Option.some.inj hcon) (by simp)
            have hBw : lineBudget fw rw st.done a0 = st.width :=
              ginv_budget_eq gs fw rw gs.length a0 fl st hG j hsg st.done
                (fun _ => rfl) hj00
            rw [haeq] at hca hcand hcfit ⊢
            rw [hBw] at hcfit ⊢
            exact ginv_fresh_fits gs fw rw gs.length a0 fl st hG hadv j hsg
              e (Or.inl hEj) st.width rfl c hca hce hcand hcfit
          · -- line runs to the end of the glyph list
            have hn : e + 1 = gs.length := by rw [← hdlen]; exact hEnd
            rcases hstart with h | h | h
            · -- line starts at 0, hence at the open line start
              have haeq : a = a0 := by omega
              rcases isCand_osplit gs j hjcand with hgsj | hgsj
              · by_cases hjn1 : j = e
                · have hj00 : j = 0 →
                      osplit st.done 0 ≠ some Split.before := by
                    intro hj0z hcon
                    have h1 : osplit st.done 0 = osplit gs 0 := hj0z ▸ hjsp
                    have h2 : osplit gs 0 = some Split.instead :=
                      hj0z ▸ hgsj
                    rw [h1, h2] at hcon
                    exact absurd (Option.some.inj hcon) (by simp)
                  have hBw : lineBudget fw rw st.done a0 = st.width :=
                    ginv_budget_eq gs fw rw gs.length a0 fl st hG j hsg
                      st.done (fun _ => rfl) hj00
                  rw [haeq] at hca hcand hcfit ⊢
                  rw [hBw] at hcfit ⊢
                  exact ginv_fresh_fits gs fw rw gs.length a0 fl st hG hadv
                    j hsg e (Or.inl hjn1.symm) st.width rfl c hca hce hcand
                    hcfit
                · exfalso
                  apply hnoIN j (by omega) (by omega)
                  rw [hjsp]
                  exact hgsj
              · by_cases hja : j = a0
                · exfalso
                  rcases Nat.eq_or_lt_of_le hca with hceq | hclt
                  · rcases hcand with ⟨_, hval | hval⟩
                    · exact hval (by omega)
                    · rw [show c = j from by omega, hgsj] at hval
                      exact absurd (Option.some.inj hval) (by simp)
                  · exact hlast c (by omega) (by omega) hcand.1
                · exfalso
                  apply hnoBE j (by omega) (by omega)
                  rw [hjsp]
                  exact hgsj
            · -- line starts after a committed SPLIT_INSTEAD
              by_cases hae0 : a = a0
              · -- same analysis as the start-at-0 outcome
                rcases isCand_osplit gs j hjcand with hgsj | hgsj
                · by_cases hjn1 : j = e
                  · have hj00 : j = 0 →
                        osplit st.done 0 ≠ some Split.before := by
                      intro hj0z hcon
                      have h1 : osplit st.done 0 = osplit gs 0 :=
                        hj0z ▸ hjsp
                      have h2 : osplit gs 0 = some Split.instead :=
                        hj0z ▸ hgsj
                      rw [h1, h2] at hcon
                      exact absurd (Option.some.inj hcon) (by simp)
                    have hBw : lineBudget fw rw st.done a0 = st.width :=
                      ginv_budget_eq gs fw rw gs.length a0 fl st hG j hsg
                        st.done (fun _ => rfl) hj00
                    rw [hae0] at hca hcand hcfit ⊢
                    rw [hBw] at hcfit ⊢
                    exact ginv_fresh_fits gs fw rw gs.length a0 fl st hG
                      hadv j hsg e (Or.inl hjn1.symm) st.width rfl c hca
                      hce hcand hcfit
                  · exfalso
                    apply hnoIN j (by omega) (by omega)
                    rw [hjsp]
                    exact hgsj
                · by_cases hja : j = a0
                  · exfalso
                    rcases Nat.eq_or_lt_of_le hca with hceq | hclt
                    · rcases hcand with ⟨_, hval | hval⟩
                      · exact hval (by omega)
                      · rw [show c = j from by omega, hgsj] at hval
                        exact absurd (Option.some.inj hval) (by simp)
                    · exact hlast c (by omega) (by omega) hcand.1
                  · exfalso
                    apply hnoBE j (by omega) (by omega)
                    rw [hjsp]
                    exact hgsj
              · by_cases haj : a - 1 = j
                · -- line starts right after the kept candidate: no valid
                  -- candidate can exist on it
                  exfalso
                  exact hlast c (by omega) (by omega) hcand.1
                · exfalso
                  exact (hG.hinterior (a - 1) (by omega) (by omega)
                    (by rw [hsg]; intro hc
                        exact haj (Option.some.inj hc).symm)).1 h
            · -- line starts at a committed SPLIT_BEFORE
              by_cases hae0 : a = a0
              · rcases isCand_osplit gs j hjcand with hgsj | hgsj
                · by_cases hjn1 : j = e
                  · have hj00 : j = 0 →
                        osplit st.done 0 ≠ some Split.before := by
                      intro hj0z hcon
                      have h1 : osplit st.done 0 = osplit gs 0 :=
                        hj0z ▸ hjsp
                      have h2 : osplit gs 0 = some Split.instead :=
                        hj0z ▸ hgsj
                      rw [h1, h2] at hcon
                      exact absurd (Option.some.inj hcon) (by simp)
                    have hBw : lineBudget fw rw st.done a0 = st.width :=
                      ginv_budget_eq gs fw rw gs.length a0 fl st hG j hsg
                        st.done (fun _ => rfl) hj00
                    rw [hae0] at hca hcand hcfit ⊢
                    rw [hBw] at hcfit ⊢
                    exact ginv_fresh_fits gs fw rw gs.length a0 fl st hG
                      hadv j hsg e (Or.inl hjn1.symm) st.width rfl c hca
                      hce hcand hcfit
                  · exfalso
                    apply hnoIN j (by omega) (by omega)
                    rw [hjsp]
                    exact hgsj
                · by_cases hja : j = a0
                  · exfalso
                    rcases Nat.eq_or_lt_of_le hca with hceq | hclt
                    · rcases hcand with ⟨_, hval | hval⟩
                      · exact hval (by omega)
                      · rw [show c = j from by omega, hgsj] at hval
                        exact absurd (Option.some.inj hval) (by simp)
                    · exact hlast c (by omega) (by omega) hcand.1
                  · exfalso
                    apply hnoBE j (by omega) (by omega)
                    rw [hjsp]
                    exact hgsj
              · by_cases haj : a = j
                · -- line starts at the kept SPLIT_BEFORE candidate:
                  -- no valid candidate can exist on it
                  exfalso
                  have hgsj : osplit gs j = some Split.before := by
                    rw [← hjsp, ← haj]
                    exact h
                  rcases Nat.eq_or_lt_of_le hca with hceq | hclt
                  · rcases hcand with ⟨_, hval | hval⟩
                    · exact hval (by omega)
                    · rw [show c = j from by omega, hgsj] at hval
                      exact absurd (Option.some.inj hval) (by simp)
                  · exact hlast c (by omega) (by omega) hcand.1
                · exfalso
                  exact (hG.hinterior a (by omega) (by omega)
                    (by rw [hsg]; intro hc
                        exact haj (Option.some.inj hc).symm)).2
                    (by omega) h
          · -- line ends just before a committed SPLIT_BEFORE: it is the
            -- kept candidate
            have he1n : e + 1 < gs.length := by
              have := osplit_lt_length st.done (e + 1) Split.before hBE
              rw [hdlen] at this
              exact this
            have hEj : e + 1 = j := by
              by_contra hne
              exact (hG.hinterior (e + 1) (by omega) he1n
                (by rw [hsg]; intro hc
                    exact hne (Option.some.inj hc).symm)).2 (by omega) hBE
            have hgsj : osplit gs j = some Split.before := by
              rw [← hjsp, ← hEj]
              exact hBE
            have haeq : a = a0 := ginv_fresh_A gs fw rw gs.length a0 fl st
              hG j hsg st.done (fun i _ _ => rfl) rfl a e hae haa0
              (by omega) hjn (Or.inr (by omega)) hstart
            have hj00 : j = 0 → osplit st.done 0 ≠ some Split.before := by
              intro hj0z _
              omega
            have hBw : lineBudget fw rw st.done a0 = st.width :=
              ginv_budget_eq gs fw rw gs.length a0 fl st hG j hsg st.done
                (fun _ => rfl) hj00
            rw [haeq] at hca hcand hcfit ⊢
            rw [hBw] at hcfit ⊢
            exact ginv_fresh_fits gs fw rw gs.length a0 fl st hG hadv j hsg
              e (Or.inr hEj) st.width rfl c hca hce hcand hcfit
    · -- final fixup demotes the pending split: the last line fits
      push_neg at hxw
      cases hsg : st.split_g with
      | none =>
          have houtd : greedy_finish st = st.done := by
            unfold greedy_finish
            rw [if_neg (not_lt_of_le hxw), hsg]
          rw [houtd] at hstart hnoBE hnoIN hend hcfit ⊢
          have haa0 : a0 ≤ a := ginv_straddle gs fw rw gs.length a0 fl st
            hG st.done (fun i _ _ => rfl) a e hae ha0e hnoBE hnoIN
          have haeq : a = a0 := by
            rcases hstart with h | h | h
            · omega
            · by_cases hae0 : a = a0
              · exact hae0
              · exact absurd h
                  ((hG.hinterior (a - 1) (by omega) (by omega)
                    (by rw [hsg]; simp)).1)
            · by_cases hae0 : a = a0
              · exact hae0
              · exact absurd h
                  ((hG.hinterior a (by omega) (by omega)
                    (by rw [hsg]; simp)).2 (by omega))
          have hBw : lineBudget fw rw st.done a0 = st.width :=
            ginv_budget_eq_none gs fw rw gs.length a0 fl st hG hsg
          rw [haeq, hBw]
          calc adv_sum gs a0 e ≤ adv_sum gs a0 gs.length :=
                adv_sum_mono gs hadv a0 e gs.length (by omega) (by omega)
            _ = st.x := hG.hx.symm
            _ ≤ st.width := hxw
      | some j =>
          have houtd : greedy_finish st = setSplitAt st.done j Split.none := by
            unfold greedy_finish
            rw [if_neg (not_lt_of_le hxw), hsg]
          rw [houtd] at hstart hnoBE hnoIN hend hcfit ⊢
          obtain ⟨hja0, hjn, hjcand, hjsp, _, hlast⟩ := hG.hpend j hsg
          have hjdn : j < st.done.length := by rw [hdlen]; exact hjn
          have hlowc : ∀ i, i ≠ j →
              osplit (setSplitAt st.done j Split.none) i =
                osplit st.done i :=
            fun i hi => osplit_setSplitAt_ne st.done j Split.none i
              (fun hc => hi hc.symm)
          have hatj : osplit (setSplitAt st.done j Split.none) j =
              some Split.none :=
            osplit_setSplitAt_self st.done j Split.none hjdn
          have haa0 : a0 ≤ a := ginv_straddle gs fw rw gs.length a0 fl st
            hG (setSplitAt st.done j Split.none)
            (fun i _ hne => hlowc i (hne j hsg)) a e hae ha0e hnoBE hnoIN
          have haeq : a = a0 := by
            rcases hstart with h | h | h
            · omega
            · by_cases hae0 : a = a0
              · exact hae0
              · exfalso
                by_cases haj : a - 1 = j
                · rw [haj, hatj] at h
                  exact absurd (Option.some.inj h) (by simp)
                · rw [hlowc _ haj] at h
                  exact (hG.hinterior (a - 1) (by omega) (by omega)
                    (by rw [hsg]; intro hc
                        exact haj (Option.some.inj hc).symm)).1 h
            · by_cases hae0 : a = a0
              · exact hae0
              · exfalso
                by_cases haj : a = j
                · rw [haj, hatj] at h
                  exact absurd (Option.some.inj h) (by simp)
                · rw [hlowc _ haj] at h
                  exact (hG.hinterior a (by omega) (by omega)
                    (by rw [hsg]; intro hc
                        exact haj (Option.some.inj hc).symm)).2
                    (by omega) h
          have hBw : lineBudget fw rw (setSplitAt st.done j Split.none) a0 =
              st.width :=
            ginv_budget_eq_unset gs fw rw gs.length a0 fl st hG j hsg
          rw [haeq, hBw]
          calc adv_sum gs a0 e ≤ adv_sum gs a0 gs.length :=
                adv_sum_mono gs hadv a0 e gs.length (by omega) (by omega)
            _ = st.x := hG.hx.symm
            _ ≤ st.width := hxw

/-- Witness input for the amended C1 theorem: an ordinary glyph, two
`SPLIT_INSTEAD` candidates, and a wide trailing glyph, with both width
budgets 3. -/
def c1wGs : List Glyph :=
  [{ character := 97, advance := 1 },
   { character := 98, advance := 1, split := Split.instead },
   { character := 99, advance := 1, split := Split.instead },
   { character := 100, advance := 9 }]

lemma c1w_out : linebreak_greedy c1wGs 3 3 =
    [{ character := 97, advance := 1 },
     { character := 98, advance := 1 },
     { character := 99, advance := 1, split := Split.instead },
     { character := 100, advance := 9 }] := by
  simp [c1wGs, linebreak_greedy, greedy_init, greedy_step,
    greedy_commit, greedy_add, greedy_finish, setSplitAt, setSplit]
  norm_num

theorem linebreak_greedy_line_fits_witness :
    IsLine (linebreak_greedy c1wGs 3 3) 0 2 ∧
    validCand c1wGs 0 1 ∧
    adv_sum (linebreak_greedy c1wGs 3 3) 0 1 ≤
      lineBudget 3 3 (linebreak_greedy c1wGs 3 3) 0 ∧
    adv_sum (linebreak_greedy c1wGs 3 3) 0 2 ≤
      lineBudget 3 3 (linebreak_greedy c1wGs 3 3) 0 := by
  have hadv : ∀ g ∈ c1wGs, 0 ≤ g.advance := by
    intro g hg
    simp [c1wGs] at hg
    rcases hg with hg | hg | hg | hg <;> rw [hg] <;> norm_num
  have hruby : ∀ g ∈ c1wGs, rubySkip g → g.split = Split.none := by
    intro g hg hs
    exfalso
    simp [c1wGs] at hg
    rcases hg with hg | hg | hg | hg <;> rw [hg] at hs <;>
      simp [rubySkip] at hs
  have hnoign : ∀ g ∈ c1wGs, g.split ≠ Split.ignore := by
    intro g hg
    simp [c1wGs] at hg
    rcases hg with hg | hg | hg | hg <;> rw [hg] <;> simp
  have hbud : lineBudget 3 3 (linebreak_greedy c1wGs 3 3) 0 = (3 : ℚ) := by
    rw [c1w_out]
    simp [lineBudget, osplit]
  have hc0 : contrib (linebreak_greedy c1wGs 3 3) 0 = 1 := by
    rw [c1w_out]
    simp [contrib]
  have hc1 : contrib (linebreak_greedy c1wGs 3 3) 1 = 1 := by
    rw [c1w_out]
    simp [contrib, rubySkip]
  have hs1 : adv_sum (linebreak_greedy c1wGs 3 3) 0 1 = 1 := by
    rw [show (1 : Nat) = 0 + 1 from rfl,
      adv_sum_succ _ 0 0 (Nat.le_refl 0), adv_sum_refl, hc0]
    norm_num
  have hs2 : adv_sum (linebreak_greedy c1wGs 3 3) 0 2 = 2 := by
    rw [show (2 : Nat) = 1 + 1 from rfl,
      adv_sum_succ _ 0 1 (by omega), hc1,
      show (1 : Nat) = 0 + 1 from rfl,
      adv_sum_succ _ 0 0 (Nat.le_refl 0), adv_sum_refl, hc0]
    norm_num
  have hline : IsLine (linebreak_greedy c1wGs 3 3) 0 2 := by
    rw [c1w_out]
    refine ⟨by omega, by simp, Or.inl rfl, ?_, ?_, ?_⟩
    · intro i h1 h2
      interval_cases i <;> simp [osplit]
    · intro i h1 h2
      interval_cases i <;> simp [osplit]
    · refine Or.inl ?_
      simp [osplit]
  have hcand : validCand c1wGs 0 1 := by
    refine ⟨⟨{ character := 98, advance := 1, split := Split.instead },
      by simp [c1wGs], ?_, Or.inl rfl⟩, Or.inl (by omega)⟩
    simp [rubySkip]
  have hfit : adv_sum (linebreak_greedy c1wGs 3 3) 0 1 ≤
      lineBudget 3 3 (linebreak_greedy c1wGs 3 3) 0 := by
    rw [hs1, hbud]
    norm_num
  exact ⟨hline, hcand, hfit,
    linebreak_greedy_line_fits c1wGs 3 3 hadv hruby hnoign 0 2 1 hline
      (by omega) (by omega) hcand hfit⟩

/-- Counterexample input for C1 as stated: a `SPLIT_INSTEAD` candidate, a
wide `SPLIT_IGNORE` glyph, another `SPLIT_INSTEAD` candidate and an
ordinary glyph, with both width budgets 10. -/
def c1cexGs : List Glyph :=
  [{ character := 97, advance := 1, split := Split.instead },
   { character := 98, advance := 100, split := Split.ignore },
   { character := 99, advance := 1, split := Split.instead },
   { character := 100, advance := 1 }]

lemma c1cex_out : linebreak_greedy c1cexGs 10 10 =
    [{ character := 97, advance := 1 },
     { character := 98, advance := 100, split := Split.ignore },
     { character := 99, advance := 1, split := Split.instead },
     { character := 100, advance := 1 }] := by
  simp [c1cexGs, linebreak_greedy, greedy_init, greedy_step,
    greedy_commit, greedy_add, greedy_finish, setSplitAt, setSplit]
  norm_num

/-- C1 as frozen is refuted by `SPLIT_IGNORE` advance deferral: on this
input all advances are nonnegative, no ruby glyph carries a split, the
output has the line `[0, 2]`, and a valid candidate (position 0) exists
before the overflow point with cumulative advance 0 within the budget,
yet the line's accumulated advance excluding its final glyph is 101,
exceeding the budget 10: the ignored advance is added after the overflow
check at the glyph that registers the next candidate. -/
theorem linebreak_greedy_overflow_ignore :
    (∀ g ∈ c1cexGs, 0 ≤ g.advance) ∧
    (∀ g ∈ c1cexGs, rubySkip g → g.split = Split.none) ∧
    IsLine (linebreak_greedy c1cexGs 10 10) 0 2 ∧
    validCand c1cexGs 0 0 ∧
    adv_sum (linebreak_greedy c1cexGs 10 10) 0 0 ≤
      lineBudget 10 10 (linebreak_greedy c1cexGs 10 10) 0 ∧
    ¬ (adv_sum (linebreak_greedy c1cexGs 10 10) 0 2 ≤
      lineBudget 10 10 (linebreak_greedy c1cexGs 10 10) 0) := by
  have hbud : lineBudget 10 10 (linebreak_greedy c1cexGs 10 10) 0 =
      (10 : ℚ) := by
    rw [c1cex_out]
    simp [lineBudget, osplit]
  have hc0 : contrib (linebreak_greedy c1cexGs 10 10) 0 = 1 := by
    rw [c1cex_out]
    simp [contrib]
  have hc1 : contrib (linebreak_greedy c1cexGs 10 10) 1 = 100 := by
    rw [c1cex_out]
    simp [contrib]
  have hs2 : adv_sum (linebreak_greedy c1cexGs 10 10) 0 2 = 101 := by
    rw [show (2 : Nat) = 1 + 1 from rfl,
      adv_sum_succ _ 0 1 (by omega), hc1,
      show (1 : Nat) = 0 + 1 from rfl,
      adv_sum_succ _ 0 0 (Nat.le_refl 0), adv_sum_refl, hc0]
    norm_num
  refine ⟨?_, ?_, ?_, ?_, ?_, ?_⟩
  · intro g hg
    simp [c1cexGs] at hg
    rcases hg with hg | hg | hg | hg <;> rw [hg] <;> norm_num
  · intro g hg hs
    exfalso
    simp [c1cexGs] at hg
    rcases hg with hg | hg | hg | hg <;> rw [hg] at hs <;>
      simp [rubySkip] at hs
  · rw [c1cex_out]
    refine ⟨by omega, by simp, Or.inl rfl, ?_, ?_, ?_⟩
    · intro i h1 h2
      interval_cases i <;> simp [osplit]
    · intro i h1 h2
      interval_cases i <;> simp [osplit]
    · refine Or.inl ?_
      simp [osplit]
  · refine ⟨⟨{ character := 97, advance := 1, split := Split.instead },
      by simp [c1cexGs], ?_, Or.inl rfl⟩, Or.inr ?_⟩
    · simp [rubySkip]
    · simp [c1cexGs, osplit]
  · rw [adv_sum_refl, hbud]
    norm_num
  · rw [hs2, hbud]
    norm_num

end Renpy
